import Mathlib

/-!
# hooky: configuration validation and hook management

A shallow embedding of `config.go` (the `HookScript`, `Settings` and `Config`
types, `validateHookScripts`, `LoadConfig` and `GetSupportedHooks`) and of
`main.go` (the dispatch of `main`), together with a model of the hook manager
(wrapper generation, validation, install and uninstall).  The manager lives
in `manager.go`, which is not among the sources: only its tests are, so its
functions are modelled from the specification, over an explicit file-system
state.

A Go `map[string][]HookScript` is represented by the list of its
`(hookName, scripts)` pairs in the order in which a `range` statement visits
them.  An `error` is an `Option String`: `none` is `nil`, and `some msg` is an
error whose `Error()` text is `msg`.
-/

namespace Hooky

/-! ## Data model (`config.go`) -/

/-- One configured entry of a hook (`type HookScript struct`). -/
structure HookScript where
  Name : String
  Script : String
  Command : String
  Description : String
  deriving DecidableEq, Repr

/-- Behavioural settings (`type Settings struct`). -/
structure Settings where
  AutoExecutable : Bool
  BackupExisting : Bool
  BackupDirectory : String
  Verbose : Bool
  deriving DecidableEq, Repr

/-- The hooks mapping, as the sequence of pairs visited by `range`. -/
abbrev Hooks := List (String × List HookScript)

/-- The loaded configuration (`type Config struct`). -/
structure Config where
  Hooks : Hooks
  Settings : Settings
  deriving DecidableEq, Repr

/-! ## `validateHookScripts` (`config.go`) -/

/-- The body of the inner loop of `validateHookScripts` for the entry at index
`i` of hook `hookName`: the error it returns, if any. -/
def checkHookScript (hookName : String) (i : Nat) (script : HookScript) : Option String :=
  let hasScript := script.Script != ""
  let hasCommand := script.Command != ""
  if !hasScript && !hasCommand then
    some ("hook " ++ hookName ++ "[" ++ toString i ++ "] (" ++ script.Name ++
      "): must specify either 'script' or 'command'")
  else if hasScript && hasCommand then
    some ("hook " ++ hookName ++ "[" ++ toString i ++ "] (" ++ script.Name ++
      "): cannot specify both 'script' and 'command', use only one")
  else
    none

/-- The inner loop `for i, script := range scripts`, started at index `i`. -/
def validateScriptsFrom (hookName : String) : Nat → List HookScript → Option String
  | _, [] => none
  | i, script :: rest =>
    match checkHookScript hookName i script with
    | some err => some err
    | none => validateScriptsFrom hookName (i + 1) rest

/-- The function `validateHookScripts`: the outer loop over the mapping. -/
def validateHookScripts : Hooks → Option String
  | [] => none
  | (hookName, scripts) :: rest =>
    match validateScriptsFrom hookName 0 scripts with
    | some err => some err
    | none => validateHookScripts rest

/-- An entry is well formed when exactly one of `Script` and `Command` is
non-empty. -/
def exactlyOne (e : HookScript) : Prop :=
  (e.Script ≠ "" ∧ e.Command = "") ∨ (e.Script = "" ∧ e.Command ≠ "")

instance (e : HookScript) : Decidable (exactlyOne e) := by
  unfold exactlyOne; infer_instance

/-- Every entry of every hook of the mapping is well formed. -/
def allExactlyOne (hooks : Hooks) : Prop :=
  ∀ p ∈ hooks, ∀ e ∈ p.2, exactlyOne e

/-! ## Strings -/

/-- The Go predicate `strings.Contains s sub`: `sub` occurs in `s` as a
contiguous run of characters. -/
def strContains (s sub : String) : Prop := sub.data <:+: s.data

instance (s sub : String) : Decidable (strContains s sub) := by
  unfold strContains; infer_instance

/-- The Go predicate `strings.HasPrefix s p`. -/
def startsWith (s p : String) : Prop := p.data <+: s.data

instance (s p : String) : Decidable (startsWith s p) := by
  unfold startsWith; infer_instance

/-- Concatenation of a list of strings, in order. -/
def concatAll : List String → String
  | [] => ""
  | s :: rest => s ++ concatAll rest

/-- The Go function `strings.Join lines "\n"`. -/
def joinLines : List String → String
  | [] => ""
  | [s] => s
  | s :: t :: rest => s ++ "\n" ++ joinLines (t :: rest)

/-- White space as the Go function `unicode.IsSpace` decides it. -/
def isSpace (c : Char) : Bool :=
  let n := c.toNat
  (9 ≤ n && n ≤ 13) || n = 32 || n = 0x85 || n = 0xA0 || n = 0x1680 ||
    (0x2000 ≤ n && n ≤ 0x200A) || n = 0x2028 || n = 0x2029 || n = 0x202F ||
    n = 0x205F || n = 0x3000

/-- The first white-space-delimited token of a string (the first element of
`strings.Fields s`), and the empty string when `s` holds no token. -/
def firstField (s : String) : String :=
  String.mk ((s.data.dropWhile isSpace).takeWhile (fun c => !isSpace c))

/-! ## Paths -/

/-- The elements of a path, the runs of characters between its separators
(`strings.Split path "/"`). -/
def splitPath : List Char → List (List Char)
  | [] => [[]]
  | c :: cs =>
    if c = '/' then [] :: splitPath cs
    else
      match splitPath cs with
      | [] => [[c]]
      | x :: xs => (c :: x) :: xs

/-- The Go function `strings.Join elems sep`. -/
def stringsJoin (sep : String) : List String → String
  | [] => ""
  | [s] => s
  | s :: t :: rest => s ++ sep ++ stringsJoin sep (t :: rest)

/-- One step of `filepath.Clean` on the elements kept so far, the last one
first: an empty element and `.` are dropped; `..` removes the element before
it, is dropped at the root, and is kept at the start of a relative path. -/
def cleanStep (rooted : Bool) (stack : List String) (elem : String) : List String :=
  if elem = "" ∨ elem = "." then stack
  else if elem = ".." then
    match stack with
    | [] => if rooted then [] else [".."]
    | top :: rest => if top = ".." then ".." :: top :: rest else rest
  else elem :: stack

/-- The Go function `filepath.Clean` (Unix): the shortest equivalent path by
lexical processing, and `.` for an empty result. -/
def filepathClean (path : String) : String :=
  let rooted := path.data.head? == some '/'
  let stack := ((splitPath path.data).map String.mk).foldl (cleanStep rooted) []
  if rooted then "/" ++ stringsJoin "/" stack.reverse
  else if stack.isEmpty then "."
  else stringsJoin "/" stack.reverse

/-- The Go function `filepath.Join`: the leading empty elements are ignored,
the others are joined by separators and the result is cleaned; the result is
empty when every element is empty. -/
def filepathJoin (elem : List String) : String :=
  match elem.dropWhile (fun e => e == "") with
  | [] => ""
  | rest => filepathClean (stringsJoin "/" rest)

/-- The Go call `filepath.Join(dir, name)`. -/
def joinPath (dir name : String) : String := filepathJoin [dir, name]

/-! ## The wrapper generator -/

/-- Modelled from the spec: the fixed signature string of a generated wrapper
(the file `manager.go` that defines it is not among the sources; the tests
look for this text). -/
def signature : String := "Generated by hooky"

/-- Modelled from the spec: the invocation emitted for an entry, the script
path with its trailing arguments verbatim, or else the literal command
(section 4.2; `manager.go` is not among the sources). -/
def invocation (script : HookScript) : String :=
  if script.Script != "" then script.Script else script.Command

/-- Modelled from the spec: the block emitted for one entry, a marker line
"Running: name", then the invocation, then a description comment
(section 4.2; `manager.go` is not among the sources). -/
def entryBlock (script : HookScript) : String :=
  "echo \"Running: " ++ script.Name ++ "\"\n" ++
    invocation script ++ "\n" ++
    "# " ++ script.Description ++ "\n"

/-- Modelled from the spec: the header of a wrapper, a POSIX shebang line, the
signature comment, and the shell option that makes the hook fail when an
entry fails (section 4.2; `manager.go` is not among the sources). -/
def wrapperHeader : String :=
  "#!/bin/sh\n" ++ "# " ++ signature ++ " - Do not edit manually\n" ++ "set -e\n"

/-- Modelled from the spec: `generateHookScript(hookName, entries)` returns
`(content, error)`; it is a pure function of its inputs that emits the header
and then one block per entry in configured order, and it does not fail
(section 4.2; `manager.go` is not among the sources). -/
def generateHookScript (_hookName : String) (scripts : List HookScript) :
    String × Option String :=
  (wrapperHeader ++ concatAll (scripts.map entryBlock), none)

/-- Modelled from the spec: the predicate by which uninstall tells a managed
hook file from a foreign one, the content contains the signature
(sections 3 and 9; `manager.go` is not among the sources). -/
def isManagedHook (content : String) : Bool := decide (strContains content signature)

/-! ## The file system -/

/-- A regular file: its content and whether its executable bits are set. -/
structure File where
  content : String
  executable : Bool
  deriving DecidableEq, Repr

/-- The state of the file system: the regular files by path, the existing
directories, and the paths on which an operation fails with an I/O error. -/
structure FS where
  files : String → Option File
  dirs : String → Bool
  denied : String → Bool

/-- Whether a regular file exists at `path` (`os.Stat` succeeds). -/
def FS.fileExists (fs : FS) (path : String) : Bool := (fs.files path).isSome

/-- Read the content of the file at `path` (`os.ReadFile`). -/
def FS.readFile (fs : FS) (path : String) : Except String String :=
  if fs.denied path then .error ("open " ++ path ++ ": permission denied")
  else
    match fs.files path with
    | none => .error ("open " ++ path ++ ": no such file or directory")
    | some f => .ok f.content

/-- Write `content` to the file `name` of directory `dir` (`os.WriteFile`):
the directory must exist; a new file is not executable and an existing file
keeps its mode. -/
def FS.writeFile (fs : FS) (dir name content : String) : Except String FS :=
  let path := joinPath dir name
  if !fs.dirs dir then .error ("open " ++ path ++ ": no such file or directory")
  else if fs.denied path then .error ("open " ++ path ++ ": permission denied")
  else
    let mode := match fs.files path with
      | some f => f.executable
      | none => false
    .ok { fs with files := fun q => if q = path then some ⟨content, mode⟩ else fs.files q }

/-- Set the executable bits of the file at `path` (`os.Chmod`). -/
def FS.chmodExec (fs : FS) (path : String) : Except String FS :=
  if fs.denied path then .error ("chmod " ++ path ++ ": operation not permitted")
  else
    match fs.files path with
    | none => .error ("chmod " ++ path ++ ": no such file or directory")
    | some f =>
      .ok { fs with files := fun q => if q = path then some ⟨f.content, true⟩ else fs.files q }

/-- Create the directory `dir` if it is absent (`os.MkdirAll`). -/
def FS.mkdirAll (fs : FS) (dir : String) : Except String FS :=
  if fs.dirs dir then .ok fs
  else if fs.denied dir then .error ("mkdir " ++ dir ++ ": permission denied")
  else .ok { fs with dirs := fun d => if d = dir then true else fs.dirs d }

/-- Remove the file at `path` (`os.Remove`). -/
def FS.remove (fs : FS) (path : String) : Except String FS :=
  if fs.denied path then .error ("remove " ++ path ++ ": permission denied")
  else
    match fs.files path with
    | none => .error ("remove " ++ path ++ ": no such file or directory")
    | some _ => .ok { fs with files := fun q => if q = path then none else fs.files q }

/-! ## The hook manager -/

/-- What the manager asks of its collaborators: the configuration loader, the
directory locator and the executable search path. -/
structure Env where
  loadConfig : String → Except String Config
  findGitDirectory : Except String String
  lookPath : String → Bool

/-- Modelled from the spec: the orchestrator `HookManager` of `manager.go`,
which is not among the sources, with the fields that the tests set; `config`
is `none` and `gitDir` is empty until they are resolved (section 3). -/
structure HookManager where
  configPath : String
  verbose : Bool
  config : Option Config
  gitDir : String

/-- Modelled from the spec: the constructor `NewHookManager(configPath,
verbose)` of `manager.go`, which is not among the sources; nothing is resolved
at construction (section 3, `TestNewHookManager`). -/
def NewHookManager (configPath : String) (verbose : Bool) : HookManager :=
  ⟨configPath, verbose, none, ""⟩

/-- Modelled from the spec: `init()` resolves lazily what is not yet set, the
configuration first and the git directory second, and yields both
(sections 2 and 3; `manager.go` is not among the sources). -/
def HookManager.init (env : Env) (hm : HookManager) : Except String (Config × String) :=
  let loaded : Except String Config := match hm.config with
    | some c => .ok c
    | none => env.loadConfig hm.configPath
  match loaded with
  | .error e => .error e
  | .ok config =>
    if hm.gitDir != "" then .ok (config, hm.gitDir)
    else
      match env.findGitDirectory with
      | .error e => .error e
      | .ok dir => .ok (config, dir)

/-- Modelled from the spec: the path of the hook file of `hookName`,
`<gitDir>/hooks/<hookName>` (section 4.4, step 2; `manager.go` is not among
the sources). -/
def hookPath (gitDir hookName : String) : String :=
  joinPath (joinPath gitDir "hooks") hookName

/-- Whether the file at `path` exists and is a generated wrapper. -/
def managedAt (fs : FS) (path : String) : Bool :=
  match fs.files path with
  | some f => isManagedHook f.content
  | none => false

/-- A backup that an install has made: the hook, the path of the copy and the
content that was copied. -/
structure BackupRecord where
  hookName : String
  path : String
  content : String
  deriving DecidableEq, Repr

/-- Modelled from the spec: the name of the backup copy of the hook file of
`hookName`.  The naming scheme is left open by the spec and is the parameter
`backupNames`, the names that the scheme tries for a hook, in order; the
first one that names no existing file of the backup directory is taken, so
that a backup overwrites neither a prior backup of the same hook nor the
backup of another hook (sections 3 and 6; `manager.go` is not among the
sources). -/
def chooseBackupName (backupNames : String → List String) (settings : Settings) (fs : FS)
    (hookName : String) : Option String :=
  (backupNames hookName).find?
    (fun name => !fs.fileExists (joinPath settings.BackupDirectory name))

/-! ### The validator -/

/-- Modelled from the spec: the problems of one entry.  For an entry with a
script path, the first token is the file path and it must exist on disk; for
an entry with a command, the first token is the executable name and it must
resolve on the search path (section 4.3; `manager.go` is not among the
sources). -/
def checkEntry (env : Env) (fs : FS) (hookName : String) (i : Nat) (script : HookScript) :
    List String :=
  (if script.Script != "" then
      if fs.fileExists (firstField script.Script) then []
      else ["hook " ++ hookName ++ "[" ++ toString i ++ "]: script file '" ++
        firstField script.Script ++ "' not found"]
    else []) ++
  (if script.Command != "" then
      if env.lookPath (firstField script.Command) then []
      else ["hook " ++ hookName ++ "[" ++ toString i ++ "]: command '" ++
        firstField script.Command ++ "' not found in PATH"]
    else [])

/-- Modelled from the spec: the problems of the entries of one hook, from
index `i` on, in order (section 4.3). -/
def checkEntriesFrom (env : Env) (fs : FS) (hookName : String) :
    Nat → List HookScript → List String
  | _, [] => []
  | i, script :: rest =>
    checkEntry env fs hookName i script ++ checkEntriesFrom env fs hookName (i + 1) rest

/-- Modelled from the spec: the problems of all hooks of the mapping, nothing
stops the collection (section 4.3). -/
def collectErrors (env : Env) (fs : FS) : Hooks → List String
  | [] => []
  | (hookName, scripts) :: rest =>
    checkEntriesFrom env fs hookName 0 scripts ++ collectErrors env fs rest

/-- Modelled from the spec: `validateScripts()` collects the problems of every
entry of every hook and combines them into one error, and returns no error
when there is none (section 4.3; `manager.go` is not among the sources). -/
def validateScripts (env : Env) (fs : FS) (config : Config) : Option String :=
  match collectErrors env fs config.Hooks with
  | [] => none
  | errs => some (joinLines errs)

/-- An entry passes the validator when the first token of its script, if it
has one, is an existing file, and the first token of its command, if it has
one, resolves on the search path. -/
def entryResolves (env : Env) (fs : FS) (e : HookScript) : Prop :=
  (e.Script ≠ "" → fs.fileExists (firstField e.Script) = true) ∧
  (e.Command ≠ "" → env.lookPath (firstField e.Command) = true)

/-! ### Install -/

/-- Modelled from the spec: the backup of an existing hook file, a copy of its
content into the backup directory, which is created if absent, under the
first free name of the naming scheme; the backup fails when every name is
taken (section 4.4, step 3, and section 6; `manager.go` is not among the
sources).  The caller, `installHook`, makes a backup only of a file that is
not a generated wrapper (section 2). -/
def backupHook (backupNames : String → List String) (settings : Settings) (gitDir : String)
    (fs : FS) (hookName : String) : Except String (FS × BackupRecord) :=
  match fs.readFile (hookPath gitDir hookName) with
  | .error e => .error e
  | .ok old =>
    match fs.mkdirAll settings.BackupDirectory with
    | .error e => .error e
    | .ok fs1 =>
      match chooseBackupName backupNames settings fs1 hookName with
      | none => .error ("failed to backup hook " ++ hookName ++ ": no free backup name")
      | some name =>
        match fs1.writeFile settings.BackupDirectory name old with
        | .error e => .error e
        | .ok fs2 => .ok (fs2, ⟨hookName, joinPath settings.BackupDirectory name, old⟩)

/-- Modelled from the spec: the installation of one hook, steps 2 to 5 of
section 4.4: the target path; the backup of an existing file when
`backupExisting` is enabled and the file is not a generated wrapper
(section 2: an existing non-generated hook file is backed up); the generated
wrapper written to the target; and the executable bits when `autoExecutable`
is enabled.  The first failing step ends it.  Beside the new state it yields
the backups that it made (`manager.go` is not among the sources). -/
def installHook (backupNames : String → List String) (settings : Settings) (gitDir : String)
    (fs : FS) (hookName : String) (scripts : List HookScript) :
    Except String (FS × List BackupRecord) :=
  let backedUp : Except String (FS × List BackupRecord) :=
    if fs.fileExists (hookPath gitDir hookName) && settings.BackupExisting &&
        !managedAt fs (hookPath gitDir hookName) then
      match backupHook backupNames settings gitDir fs hookName with
      | .error e => .error e
      | .ok (fs1, record) => .ok (fs1, [record])
    else .ok (fs, [])
  match backedUp with
  | .error e => .error e
  | .ok (fs1, made) =>
    match generateHookScript hookName scripts with
    | (_, some e) => .error e
    | (content, none) =>
      match fs1.writeFile (joinPath gitDir "hooks") hookName content with
      | .error e => .error e
      | .ok fs2 =>
        if settings.AutoExecutable then
          match fs2.chmodExec (hookPath gitDir hookName) with
          | .error e => .error e
          | .ok fs3 => .ok (fs3, made)
        else .ok (fs2, made)

/-- Modelled from the spec: the loop of `InstallHooks` over the hooks of the
configuration that have a non-empty entry list; the first error aborts the
remaining hooks (section 4.4).  Beside the new state it yields the backups
that were made, in order. -/
def installAll (backupNames : String → List String) (settings : Settings) (gitDir : String) :
    FS → Hooks → Except String (FS × List BackupRecord)
  | fs, [] => .ok (fs, [])
  | fs, (hookName, scripts) :: rest =>
    if scripts.isEmpty then installAll backupNames settings gitDir fs rest
    else
      match installHook backupNames settings gitDir fs hookName scripts with
      | .error e => .error e
      | .ok (fs1, made) =>
        match installAll backupNames settings gitDir fs1 rest with
        | .error e => .error e
        | .ok (fs2, made') => .ok (fs2, made ++ made')

/-- Modelled from the spec: `InstallHooks()` ensures that the manager is
initialised and installs every configured hook that has entries
(section 4.4; `manager.go` is not among the sources). -/
def InstallHooks (env : Env) (backupNames : String → List String) (hm : HookManager)
    (fs : FS) : Except String FS :=
  match hm.init env with
  | .error e => .error e
  | .ok (config, gitDir) =>
    match installAll backupNames config.Settings gitDir fs config.Hooks with
    | .error e => .error e
    | .ok (fs', _) => .ok fs'

/-- The backups that `InstallHooks` makes from the state `fs`, in order, and
none when it fails. -/
def InstallBackups (env : Env) (backupNames : String → List String) (hm : HookManager)
    (fs : FS) : List BackupRecord :=
  match hm.init env with
  | .error _ => []
  | .ok (config, gitDir) =>
    match installAll backupNames config.Settings gitDir fs config.Hooks with
    | .error _ => []
    | .ok (_, made) => made

/-! ### Uninstall -/

/-- Modelled from the spec: the removal of one hook, the file is read if it is
present and deleted if and only if its content holds the signature; a missing
file is not an error (section 4.5; `manager.go` is not among the sources). -/
def uninstallHook (gitDir : String) (fs : FS) (hookName : String) : Except String FS :=
  if !fs.fileExists (hookPath gitDir hookName) then .ok fs
  else
    match fs.readFile (hookPath gitDir hookName) with
    | .error e => .error e
    | .ok content =>
      if isManagedHook content then fs.remove (hookPath gitDir hookName) else .ok fs

/-- Modelled from the spec: the loop of `UninstallHooks` over every hook name
of the configuration; the first error aborts it (sections 4.5 and 7). -/
def uninstallAll (gitDir : String) : FS → Hooks → Except String FS
  | fs, [] => .ok fs
  | fs, (hookName, _) :: rest =>
    match uninstallHook gitDir fs hookName with
    | .error e => .error e
    | .ok fs1 => uninstallAll gitDir fs1 rest

/-- Modelled from the spec: `UninstallHooks()` ensures that the manager is
initialised and removes the generated wrappers of the configured hooks; it
takes no backup (section 4.5; `manager.go` is not among the sources). -/
def UninstallHooks (env : Env) (hm : HookManager) (fs : FS) : Except String FS :=
  match hm.init env with
  | .error e => .error e
  | .ok (config, gitDir) => uninstallAll gitDir fs config.Hooks

/-! ## `LoadConfig` and `GetSupportedHooks` (`config.go`) -/

/-- What a YAML document says about the `settings` block: for every key, the
value that the document gives to the key, if it gives one. -/
structure SettingsDoc where
  auto_executable : Option Bool
  backup_existing : Option Bool
  backup_directory : Option String
  verbose : Option Bool
  deriving DecidableEq, Repr

/-- What a YAML document says about a configuration: the `hooks` mapping and
the `settings` block, each when the document mentions it. -/
structure ConfigDoc where
  hooks : Option Hooks
  settings : Option SettingsDoc
  deriving DecidableEq, Repr

/-- The decoding of a `settings` block into an existing `Settings` value, as
`yaml.Unmarshal` does it for a struct: a key of the document is assigned to
its field, and a field without a key keeps the value it had. -/
def unmarshalSettings (doc : SettingsDoc) (settings : Settings) : Settings :=
  { AutoExecutable := match doc.auto_executable with
      | some v => v
      | none => settings.AutoExecutable
    BackupExisting := match doc.backup_existing with
      | some v => v
      | none => settings.BackupExisting
    BackupDirectory := match doc.backup_directory with
      | some v => v
      | none => settings.BackupDirectory
    Verbose := match doc.verbose with
      | some v => v
      | none => settings.Verbose }

/-- The call `yaml.Unmarshal(data, &config)`.  The YAML parser is the
parameter `parseYAML`, which yields what the document says or the error of
the library; the document is decoded into the existing `config`. -/
def yamlUnmarshal (parseYAML : String → Except String ConfigDoc) (data : String)
    (config : Config) : Except String Config :=
  match parseYAML data with
  | .error err => .error err
  | .ok doc =>
    .ok { Hooks := match doc.hooks with
            | some hooks => hooks
            | none => config.Hooks
          Settings := match doc.settings with
            | some block => unmarshalSettings block config.Settings
            | none => config.Settings }

/-- The function `LoadConfig`: it returns `(*Config, error)`, and `none` in the
first component is the nil pointer.  The file is read from the file system
`fs`. -/
def LoadConfig (fs : FS) (parseYAML : String → Except String ConfigDoc) (configPath : String) :
    Option Config × Option String :=
  match fs.readFile configPath with
  | .error err => (none, some ("failed to read config file: " ++ err))
  | .ok data =>
    -- `var config Config`, then the defaults
    let config : Config :=
      { Hooks := []
        Settings :=
          { AutoExecutable := true
            BackupExisting := true
            BackupDirectory := ".hooky-backup"
            Verbose := false } }
    match yamlUnmarshal parseYAML data config with
    | .error err => (none, some ("failed to parse config file: " ++ err))
    | .ok config =>
      match validateHookScripts config.Hooks with
      | some err => (none, some err)
      | none => (some config, none)

/-- What a document says about one setting: `none` when the document has no
`settings` block or the block does not mention the key. -/
def ConfigDoc.setting {α : Type} (doc : ConfigDoc) (key : SettingsDoc → Option α) : Option α :=
  match doc.settings with
  | some block => key block
  | none => none

/-- The function `GetSupportedHooks`. -/
def GetSupportedHooks : List String :=
  [ "applypatch-msg",
    "pre-applypatch",
    "post-applypatch",
    "pre-commit",
    "prepare-commit-msg",
    "commit-msg",
    "post-commit",
    "pre-rebase",
    "post-checkout",
    "post-merge",
    "pre-receive",
    "update",
    "post-receive",
    "post-update",
    "pre-auto-gc",
    "post-rewrite",
    "pre-push",
    "push-to-checkout" ]

/-- Some entry of the list is not well formed. -/
def hasInvalidEntry (scripts : List HookScript) : Prop := ∃ e ∈ scripts, ¬ exactlyOne e

instance (scripts : List HookScript) : Decidable (hasInvalidEntry scripts) := by
  unfold hasInvalidEntry; infer_instance

/-! ## `main` (`main.go`) -/

/-- The constant `version`. -/
def version : String := "1.3.0"

/-- The values of the command-line flags after `flag.Parse()`. -/
structure Flags where
  configFile : String
  install : Bool
  uninstall : Bool
  list : Bool
  verbose : Bool
  showVersion : Bool
  deriving DecidableEq, Repr

/-- The operations of the manager that `main` calls, as functions of the
manager and of the state of the world (they are methods of `manager.go`, which
is not among the sources), and the text that `flag.Usage()` prints. -/
structure ManagerOps (σ : Type) where
  InstallHooks : HookManager → σ → Option String × σ
  UninstallHooks : HookManager → σ → Option String × σ
  ListHooks : HookManager → σ → Option String × σ
  usage : String

/-- How the process ends: the state of the world, what was printed on the
standard output and on the standard error, and the exit status. -/
structure ProcessEnd (σ : Type) where
  world : σ
  stdout : String
  stderr : String
  status : Nat

/-- The function `main`, after `flag.Parse()`. -/
def main {σ : Type} (ops : ManagerOps σ) (flags : Flags) (world : σ) : ProcessEnd σ :=
  if flags.showVersion then
    ⟨world, "hooky version " ++ version ++ "\n", "", 0⟩
  else
    let manager := NewHookManager flags.configFile flags.verbose
    if flags.install then
      match ops.InstallHooks manager world with
      | (some err, world') => ⟨world', "", "Error installing hooks: " ++ err ++ "\n", 1⟩
      | (none, world') => ⟨world', "Hooks installed successfully\n", "", 0⟩
    else if flags.uninstall then
      match ops.UninstallHooks manager world with
      | (some err, world') => ⟨world', "", "Error uninstalling hooks: " ++ err ++ "\n", 1⟩
      | (none, world') => ⟨world', "Hooks uninstalled successfully\n", "", 0⟩
    else if flags.list then
      match ops.ListHooks manager world with
      | (some err, world') => ⟨world', "", "Error listing hooks: " ++ err ++ "\n", 1⟩
      | (none, world') => ⟨world', "", "", 0⟩
    else
      ⟨world, "", ops.usage, 0⟩

/-- The operations of the manager that the command line can ask for. -/
inductive Operation where
  | install
  | uninstall
  | list
  deriving DecidableEq, Repr

/-- The operation that the flags select, in the words of the specification:
none with `-version`; otherwise the first flag that is set among `-install`,
`-uninstall` and `-list`; none when none of them is set. -/
def selectedOperation (flags : Flags) : Option Operation :=
  if flags.showVersion then none
  else if flags.install then some .install
  else if flags.uninstall then some .uninstall
  else if flags.list then some .list
  else none

/-- The run of one operation, or of none, from a state of the world: the error
that the operation returns and the state that it leaves. -/
def runOperation {σ : Type} (ops : ManagerOps σ) (manager : HookManager) (world : σ) :
    Option Operation → Option String × σ
  | none => (none, world)
  | some .install => ops.InstallHooks manager world
  | some .uninstall => ops.UninstallHooks manager world
  | some .list => ops.ListHooks manager world

/-! ## Sample data

The configurations of `TestInstallHooks` and `TestUninstallHooks`, on a file
system where a hand-written `pre-commit` hook is already present. -/

/-- The state reached by an operation, and `fs` when the operation fails. -/
def resultOr (fs : FS) : Except String FS → FS
  | .ok fs' => fs'
  | .error _ => fs

/-- Collaborators that resolve nothing but the command `echo`. -/
def sampleEnv : Env :=
  ⟨fun _ => .error "failed to read config file", .error "not a git repository",
    fun c => c == "echo"⟩

/-- A backup naming scheme: the hook name with the suffix `.backup`, and then
with a number after it. -/
def sampleBackupNames (hookName : String) : List String :=
  [hookName ++ ".backup", hookName ++ ".backup.1", hookName ++ ".backup.2"]

/-- The configuration of `TestInstallHooks`, with `autoExecutable` enabled. -/
def sampleConfig : Config :=
  ⟨[("pre-commit",
      [⟨"test-script", "test.sh", "", "Test script"⟩,
       ⟨"test-command", "", "echo test", "Test command"⟩])],
    ⟨true, true, ".hooky-backup", false⟩⟩

/-- A file system with the hooks directory, the script `test.sh` and a
hand-written `pre-commit` hook. -/
def sampleFS : FS :=
  ⟨fun p =>
      if p = ".git/hooks/pre-commit" then some ⟨"#!/bin/sh\necho mine\n", true⟩
      else if p = "test.sh" then some ⟨"#!/bin/bash\necho test", true⟩
      else none,
    fun d => d == ".git/hooks",
    fun _ => false⟩

/-- The configuration of `TestInstallHooks` with a second hook, `pre-push`. -/
def installConfig : Config :=
  ⟨[("pre-commit",
      [⟨"test-script", "test.sh", "", "Test script"⟩,
       ⟨"test-command", "", "echo test", "Test command"⟩]),
    ("pre-push", [⟨"build", "build.sh", "", "Build"⟩])],
    ⟨true, true, ".hooky-backup", false⟩⟩

/-- A manager that holds `installConfig` and the git directory `.git`. -/
def installManager : HookManager := ⟨"hooky.yaml", false, some installConfig, ".git"⟩

/-- The file system after `InstallHooks` on the sample. -/
def sampleInstalled : FS :=
  resultOr sampleFS (InstallHooks sampleEnv sampleBackupNames installManager sampleFS)

/-- The file system after `InstallHooks` and then `UninstallHooks`. -/
def sampleUninstalled : FS :=
  resultOr sampleInstalled (UninstallHooks sampleEnv installManager sampleInstalled)

/-- The file system after a second `InstallHooks` on the sample. -/
def sampleReinstalled : FS :=
  resultOr sampleInstalled
    (InstallHooks sampleEnv sampleBackupNames installManager sampleInstalled)

/-- A configuration with two hook names for one hook file, `pre-commit` and
`./pre-commit`, visited in this order. -/
def aliasConfig : Config :=
  ⟨[("pre-commit", [⟨"lint", "lint.sh", "", "Lint"⟩]),
    ("./pre-commit", [⟨"test", "", "go test", "Test"⟩])],
    ⟨true, true, ".hooky-backup", false⟩⟩

/-- A manager that holds `aliasConfig` and the git directory `.git`. -/
def aliasManager : HookManager := ⟨"hooky.yaml", false, some aliasConfig, ".git"⟩

/-- The file system after `InstallHooks` with `aliasConfig`. -/
def aliasInstalled : FS :=
  resultOr sampleFS (InstallHooks sampleEnv sampleBackupNames aliasManager sampleFS)

/-- The mapping of `aliasConfig`, visited in the other order. -/
def aliasConfigSwapped : Config :=
  ⟨[("./pre-commit", [⟨"test", "", "go test", "Test"⟩]),
    ("pre-commit", [⟨"lint", "lint.sh", "", "Lint"⟩])],
    ⟨true, true, ".hooky-backup", false⟩⟩

/-- A manager that holds `aliasConfigSwapped` and the git directory `.git`. -/
def aliasManagerSwapped : HookManager :=
  ⟨"hooky.yaml", false, some aliasConfigSwapped, ".git"⟩

/-- The file system after `InstallHooks` with `aliasConfigSwapped`. -/
def aliasInstalledSwapped : FS :=
  resultOr sampleFS (InstallHooks sampleEnv sampleBackupNames aliasManagerSwapped sampleFS)

/-- A configuration whose backup directory is the hooks directory and whose
second hook, `pre-commit.backup`, has the name of the backup of the first. -/
def clashConfig : Config :=
  ⟨[("pre-commit", [⟨"lint", "lint.sh", "", "Lint"⟩]),
    ("pre-commit.backup", [⟨"test", "", "go test", "Test"⟩])],
    ⟨true, true, ".git/hooks", false⟩⟩

/-- A manager that holds `clashConfig` and the git directory `.git`. -/
def clashManager : HookManager := ⟨"hooky.yaml", false, some clashConfig, ".git"⟩

/-- The file system after `InstallHooks` with `clashConfig`. -/
def clashInstalled : FS :=
  resultOr sampleFS (InstallHooks sampleEnv sampleBackupNames clashManager sampleFS)

/-- The file system after `InstallHooks` and then `UninstallHooks` with
`clashConfig`. -/
def clashUninstalled : FS :=
  resultOr clashInstalled (UninstallHooks sampleEnv clashManager clashInstalled)

/-- The configuration of `TestUninstallHooks`. -/
def uninstallConfig : Config :=
  ⟨[("pre-commit", [⟨"test", "", "echo test", "Test"⟩]),
    ("pre-push", [⟨"test", "", "echo test", "Test"⟩])],
    ⟨false, false, "", false⟩⟩

/-- A manager that holds `uninstallConfig` and the git directory `.git`. -/
def uninstallManager : HookManager := ⟨"hooky.yaml", false, some uninstallConfig, ".git"⟩

/-- The file system of `TestUninstallHooks`: a generated `pre-commit` hook and
a foreign `pre-push` hook. -/
def uninstallFS : FS :=
  ⟨fun p =>
      if p = ".git/hooks/pre-commit" then
        some ⟨"#!/bin/sh\n# Generated by hooky - Do not edit manually\necho \"hooky generated hook\"\n", true⟩
      else if p = ".git/hooks/pre-push" then some ⟨"#!/bin/sh\necho \"other hook\"\n", true⟩
      else none,
    fun d => d == ".git/hooks",
    fun _ => false⟩

/-- The file system after `UninstallHooks` on the sample of the test. -/
def uninstallResult : FS :=
  resultOr uninstallFS (UninstallHooks sampleEnv uninstallManager uninstallFS)

/-- The text of a configuration file: one hook with a script entry, and a
`settings` block that mentions `verbose` only (`TestLoadConfig`). -/
def sampleYAML : String :=
  "hooks:\n  pre-commit:\n    - name: \"test\"\n      script: \"test.sh\"\n" ++
  "      description: \"Test script\"\nsettings:\n  verbose: true\n"

/-- A parser that knows the text `sampleYAML` and rejects every other text. -/
def sampleParseYAML (data : String) : Except String ConfigDoc :=
  if data = sampleYAML then
    .ok ⟨some [("pre-commit", [⟨"test", "test.sh", "", "Test script"⟩])],
      some ⟨none, none, none, some true⟩⟩
  else .error "yaml: did not find expected key"

/-- A file system that holds the configuration file `hooky.yaml`. -/
def configFS : FS :=
  ⟨fun p => if p = "hooky.yaml" then some ⟨sampleYAML, false⟩ else none,
    fun _ => false,
    fun _ => false⟩

/-! # Theorems -/

/-! ### Lemmas on `validateHookScripts` -/

theorem checkHookScript_eq_none_iff (h : String) (i : Nat) (e : HookScript) :
    checkHookScript h i e = none ↔ exactlyOne e := by
  unfold checkHookScript exactlyOne
  by_cases hs : e.Script = "" <;> by_cases hc : e.Command = "" <;> simp [hs, hc]

theorem validateScriptsFrom_eq_none_iff (h : String) (es : List HookScript) :
    ∀ i, validateScriptsFrom h i es = none ↔ ∀ e ∈ es, exactlyOne e := by
  induction es with
  | nil => intro i; simp [validateScriptsFrom]
  | cons e rest ih =>
    intro i
    unfold validateScriptsFrom
    cases hc : checkHookScript h i e with
    | none =>
      have he := (checkHookScript_eq_none_iff h i e).mp hc
      simp [ih (i + 1), he]
    | some err =>
      have he : ¬ exactlyOne e := fun hx => by
        rw [(checkHookScript_eq_none_iff h i e).mpr hx] at hc; cases hc
      simp [he]

theorem validateHookScripts_eq_none_iff (hooks : Hooks) :
    validateHookScripts hooks = none ↔ allExactlyOne hooks := by
  induction hooks with
  | nil => simp [validateHookScripts, allExactlyOne]
  | cons p rest ih =>
    obtain ⟨h, es⟩ := p
    unfold validateHookScripts
    cases hc : validateScriptsFrom h 0 es with
    | none =>
      have hes := (validateScriptsFrom_eq_none_iff h es 0).mp hc
      simp only [ih]
      unfold allExactlyOne
      simp only [List.mem_cons, forall_eq_or_imp]
      exact ⟨fun hx => ⟨hes, hx⟩, fun hx => hx.2⟩
    | some err =>
      have hes : ¬ ∀ e ∈ es, exactlyOne e := fun hx => by
        rw [(validateScriptsFrom_eq_none_iff h es 0).mpr hx] at hc; cases hc
      unfold allExactlyOne
      simp [hes]

/-- The inner loop skips a well-formed prefix and reports the first entry that
is not well formed, with its index. -/
theorem validateScriptsFrom_append (h : String) (pre : List HookScript) (e : HookScript)
    (post : List HookScript) (hpre : ∀ x ∈ pre, exactlyOne x) (he : ¬ exactlyOne e) :
    ∀ i, validateScriptsFrom h i (pre ++ e :: post) = checkHookScript h (i + pre.length) e := by
  induction pre with
  | nil =>
    intro i
    simp only [List.nil_append, List.length_nil, Nat.add_zero]
    unfold validateScriptsFrom
    cases hc : checkHookScript h i e with
    | none => exact absurd ((checkHookScript_eq_none_iff h i e).mp hc) he
    | some err => rfl
  | cons x rest ih =>
    intro i
    have hx : exactlyOne x := hpre x (List.mem_cons_self _ _)
    have hrest : ∀ y ∈ rest, exactlyOne y := fun y hy => hpre y (List.mem_cons_of_mem _ hy)
    simp only [List.cons_append, List.length_cons]
    unfold validateScriptsFrom
    rw [(checkHookScript_eq_none_iff h i x).mpr hx]
    simp only
    rw [ih hrest (i + 1)]
    congr 1
    omega

/-- The outer loop skips hooks all of whose entries are well formed. -/
theorem validateHookScripts_append (pre : Hooks) (rest : Hooks) (hpre : allExactlyOne pre) :
    validateHookScripts (pre ++ rest) = validateHookScripts rest := by
  induction pre with
  | nil => rfl
  | cons p ps ih =>
    obtain ⟨h, es⟩ := p
    have hes : ∀ e ∈ es, exactlyOne e := hpre (h, es) (List.mem_cons_self _ _)
    have hps : allExactlyOne ps := fun q hq => hpre q (List.mem_cons_of_mem _ hq)
    simp only [List.cons_append]
    rw [validateHookScripts, (validateScriptsFrom_eq_none_iff h es 0).mpr hes]
    exact ih hps

/-- When the entry at index `i` is the only one of the list that is not well
formed, the inner loop returns what the loop body returns for it. -/
theorem validateScriptsFrom_only (h : String) (es : List HookScript) :
    ∀ (i : Nat) (e : HookScript), es[i]? = some e → ¬ exactlyOne e →
      (∀ j x, es[j]? = some x → j < i → exactlyOne x) →
      ∀ k, validateScriptsFrom h k es = checkHookScript h (k + i) e := by
  induction es with
  | nil => intro i e hi; simp at hi
  | cons x rest ih =>
    intro i e hi he hlt k
    cases i with
    | zero =>
      simp only [List.getElem?_cons_zero, Option.some.injEq] at hi
      subst hi
      rw [validateScriptsFrom]
      cases hc : checkHookScript h k x with
      | none => exact absurd ((checkHookScript_eq_none_iff h k x).mp hc) he
      | some err => simp only [Nat.add_zero, hc]
    | succ n =>
      simp only [List.getElem?_cons_succ] at hi
      have hx : exactlyOne x := hlt 0 x (by simp) (Nat.succ_pos n)
      rw [validateScriptsFrom, (checkHookScript_eq_none_iff h k x).mpr hx]
      simp only
      rw [ih n e hi he (fun j y hy hj => hlt (j + 1) y (by simpa using hy) (by omega)) (k + 1)]
      congr 1
      omega

/-- When every hook other than `(h, es)` has only well-formed entries and `es`
has an entry that is not well formed, the outer loop returns what the inner
loop returns for `es`, whatever the position of `(h, es)` in the visit. -/
theorem validateHookScripts_only (h : String) (es : List HookScript)
    (hes : ¬ ∀ e ∈ es, exactlyOne e) (hooks : Hooks) (hmem : (h, es) ∈ hooks)
    (hothers : ∀ p ∈ hooks, p ≠ (h, es) → ∀ e ∈ p.2, exactlyOne e) :
    validateHookScripts hooks = validateScriptsFrom h 0 es := by
  induction hooks with
  | nil => simp at hmem
  | cons p rest ih =>
    obtain ⟨h', es'⟩ := p
    by_cases hp : (h', es') = (h, es)
    · simp only [Prod.mk.injEq] at hp
      obtain ⟨rfl, rfl⟩ := hp
      rw [validateHookScripts]
      cases hc : validateScriptsFrom h' 0 es' with
      | none => exact absurd ((validateScriptsFrom_eq_none_iff h' es' 0).mp hc) hes
      | some err => rfl
    · have hv : ∀ e ∈ es', exactlyOne e := hothers (h', es') (List.mem_cons_self _ _) hp
      have hmem' : (h, es) ∈ rest := by
        rcases List.mem_cons.mp hmem with heq | hin
        · exact absurd heq.symm hp
        · exact hin
      rw [validateHookScripts, (validateScriptsFrom_eq_none_iff h' es' 0).mpr hv]
      exact ih hmem' (fun q hq hne => hothers q (List.mem_cons_of_mem _ hq) hne)

/-! ## Lemmas on strings -/

theorem strContains_mid (a sub b : String) : strContains (a ++ sub ++ b) sub :=
  ⟨a.data, b.data, by simp [String.data_append]⟩

theorem strContains_append_left (t s sub : String) (h : strContains s sub) :
    strContains (t ++ s) sub := by
  obtain ⟨a, b, hab⟩ := h
  exact ⟨t.data ++ a, b, by simp [String.data_append, ← hab]⟩

theorem strContains_append_right (s t sub : String) (h : strContains s sub) :
    strContains (s ++ t) sub := by
  obtain ⟨a, b, hab⟩ := h
  exact ⟨a, b ++ t.data, by simp [String.data_append, ← hab]⟩

theorem strContains_trans (s t u : String) (h1 : strContains s t) (h2 : strContains t u) :
    strContains s u := by
  obtain ⟨a, b, hab⟩ := h1
  obtain ⟨c, d, hcd⟩ := h2
  exact ⟨a ++ c, d ++ b, by simp [← hab, ← hcd]⟩

theorem strContains_self (s : String) : strContains s s :=
  ⟨[], [], by simp⟩

theorem startsWith_append_right (s t p : String) (h : startsWith s p) :
    startsWith (s ++ t) p := by
  obtain ⟨b, hb⟩ := h
  exact ⟨b ++ t.data, by simp [String.data_append, ← hb]⟩

/-- An element of a list of lines occurs in their join. -/
theorem strContains_joinLines (errs : List String) (e : String) (he : e ∈ errs) :
    strContains (joinLines errs) e := by
  induction errs with
  | nil => simp at he
  | cons x rest ih =>
    cases rest with
    | nil =>
      simp only [List.mem_singleton] at he
      subst he
      exact strContains_self _
    | cons y ys =>
      rw [joinLines]
      rcases List.mem_cons.mp he with hx | hin
      · subst hx
        exact strContains_append_right _ _ _ (strContains_append_right _ _ _ (strContains_self _))
      · exact strContains_append_left _ _ _ (ih hin)

/-! ## Lemmas on the wrapper generator -/

theorem entryBlock_shape (script : HookScript) :
    entryBlock script =
      "echo \"" ++ "Running: " ++ script.Name ++ "\"\n" ++ invocation script ++
        ("\n# " ++ script.Description ++ "\n") := by
  unfold entryBlock
  have h1 : "echo \"Running: " = "echo \"" ++ "Running: " := by decide
  have h2 : "\n# " = "\n" ++ "# " := by decide
  rw [h1, h2]
  simp only [String.append_assoc]

theorem entryBlock_contains_invocation (script : HookScript) :
    strContains (entryBlock script) (invocation script) := by
  rw [entryBlock_shape]
  exact strContains_mid _ _ _

theorem concatAll_contains (blocks : List String) (b : String) (hb : b ∈ blocks) :
    strContains (concatAll blocks) b := by
  induction blocks with
  | nil => simp at hb
  | cons x rest ih =>
    rw [concatAll]
    rcases List.mem_cons.mp hb with hx | hin
    · subst hx
      exact strContains_append_right _ _ _ (strContains_self _)
    · exact strContains_append_left _ _ _ (ih hin)

theorem generateHookScript_contains_signature (hookName : String) (scripts : List HookScript) :
    strContains (generateHookScript hookName scripts).1 signature := by
  unfold generateHookScript
  exact strContains_append_right _ _ _ (by decide)

theorem generateHookScript_contains_invocation (hookName : String) (scripts : List HookScript)
    (e : HookScript) (he : e ∈ scripts) :
    strContains (generateHookScript hookName scripts).1 (invocation e) := by
  unfold generateHookScript
  refine strContains_append_left _ _ _ ?_
  exact strContains_trans _ _ _
    (concatAll_contains _ _ (List.mem_map_of_mem entryBlock he))
    (entryBlock_contains_invocation e)

/-! ## Lemmas on the validator -/

theorem takeWhile_token (l r : List Char) (hl : ∀ c ∈ l, isSpace c = false)
    (hr : r = [] ∨ ∃ c r', r = c :: r' ∧ isSpace c = true) :
    (l ++ r).takeWhile (fun c => !isSpace c) = l := by
  induction l with
  | nil =>
    rcases hr with rfl | ⟨c, r', rfl, hc⟩
    · rfl
    · simp [List.takeWhile, hc]
  | cons x xs ih =>
    have hx : isSpace x = false := hl x (List.mem_cons_self _ _)
    have ih' := ih (fun c hc => hl c (List.mem_cons_of_mem _ hc))
    simp only [List.cons_append, List.takeWhile_cons, hx, Bool.not_false, if_true, ih']

/-- The first token of a string that is a token, or a token followed by a
space and arguments, is that token. -/
theorem firstField_token (tok s : String) (hne : tok ≠ "")
    (hns : ∀ c ∈ tok.data, isSpace c = false)
    (hform : s = tok ∨ ∃ args : String, s = tok ++ " " ++ args) :
    firstField s = tok := by
  have hdata : ∃ r, s.data = tok.data ++ r ∧
      (r = [] ∨ ∃ c r', r = c :: r' ∧ isSpace c = true) := by
    rcases hform with rfl | ⟨args, rfl⟩
    · exact ⟨[], by simp, Or.inl rfl⟩
    · refine ⟨' ' :: args.data, ?_, Or.inr ⟨' ', args.data, rfl, by decide⟩⟩
      simp [String.data_append]
  obtain ⟨r, hr, hsp⟩ := hdata
  unfold firstField
  rw [hr]
  have hdrop : (tok.data ++ r).dropWhile isSpace = tok.data ++ r := by
    cases htd : tok.data with
    | nil => exact absurd (String.ext (by simpa using htd)) hne
    | cons c cs =>
      have hc : isSpace c = false := hns c (by rw [htd]; exact List.mem_cons_self _ _)
      simp [List.dropWhile, hc]
  rw [hdrop, takeWhile_token _ _ hns hsp]

theorem checkEntry_eq_nil_iff (env : Env) (fs : FS) (h : String) (i : Nat) (e : HookScript) :
    checkEntry env fs h i e = [] ↔ entryResolves env fs e := by
  unfold checkEntry entryResolves
  by_cases hs : e.Script = "" <;> by_cases hc : e.Command = "" <;>
    cases hf : fs.fileExists (firstField e.Script) <;>
    cases hl : env.lookPath (firstField e.Command) <;> simp [hs, hc]

theorem checkEntriesFrom_eq_nil_iff (env : Env) (fs : FS) (h : String) (es : List HookScript) :
    ∀ k, checkEntriesFrom env fs h k es = [] ↔ ∀ e ∈ es, entryResolves env fs e := by
  induction es with
  | nil => intro k; simp [checkEntriesFrom]
  | cons x rest ih =>
    intro k
    simp [checkEntriesFrom, checkEntry_eq_nil_iff, ih (k + 1)]

theorem collectErrors_eq_nil_iff (env : Env) (fs : FS) (hooks : Hooks) :
    collectErrors env fs hooks = [] ↔ ∀ p ∈ hooks, ∀ e ∈ p.2, entryResolves env fs e := by
  induction hooks with
  | nil => simp [collectErrors]
  | cons p rest ih =>
    obtain ⟨h, es⟩ := p
    simp [collectErrors, checkEntriesFrom_eq_nil_iff, ih]

theorem checkEntriesFrom_mem (env : Env) (fs : FS) (h : String) (es : List HookScript) :
    ∀ (i k : Nat) (e : HookScript), es[i]? = some e →
      ∀ m ∈ checkEntry env fs h (k + i) e, m ∈ checkEntriesFrom env fs h k es := by
  induction es with
  | nil => intro i k e hi; simp at hi
  | cons x rest ih =>
    intro i k e hi m hm
    rw [checkEntriesFrom]
    cases i with
    | zero =>
      simp only [List.getElem?_cons_zero, Option.some.injEq] at hi
      subst hi
      exact List.mem_append_left _ (by simpa using hm)
    | succ n =>
      simp only [List.getElem?_cons_succ] at hi
      refine List.mem_append_right _ (ih n (k + 1) e hi m ?_)
      have hidx : k + 1 + n = k + (n + 1) := by omega
      rw [hidx]
      exact hm

theorem collectErrors_mem (env : Env) (fs : FS) (hooks : Hooks) (h : String)
    (es : List HookScript) (hmem : (h, es) ∈ hooks) :
    ∀ m ∈ checkEntriesFrom env fs h 0 es, m ∈ collectErrors env fs hooks := by
  induction hooks with
  | nil => simp at hmem
  | cons p rest ih =>
    obtain ⟨h', es'⟩ := p
    intro m hm
    rw [collectErrors]
    rcases List.mem_cons.mp hmem with heq | hin
    · simp only [Prod.mk.injEq] at heq
      obtain ⟨rfl, rfl⟩ := heq
      exact List.mem_append_left _ hm
    · exact List.mem_append_right _ (ih hin m hm)

/-- A problem of the entry at index `i` of a configured hook is part of the
error that `validateScripts` returns. -/
theorem validateScripts_mentions (env : Env) (fs : FS) (config : Config) (h : String)
    (es : List HookScript) (i : Nat) (e : HookScript) (hmem : (h, es) ∈ config.Hooks)
    (hi : es[i]? = some e) (m : String) (hm : m ∈ checkEntry env fs h i e) :
    ∃ msg, validateScripts env fs config = some msg ∧ strContains msg m := by
  have h1 : m ∈ checkEntriesFrom env fs h 0 es :=
    checkEntriesFrom_mem env fs h es i 0 e hi m (by simpa using hm)
  have h2 : m ∈ collectErrors env fs config.Hooks :=
    collectErrors_mem env fs config.Hooks h es hmem m h1
  unfold validateScripts
  cases hc : collectErrors env fs config.Hooks with
  | nil => rw [hc] at h2; simp at h2
  | cons x xs =>
    refine ⟨joinLines (x :: xs), rfl, ?_⟩
    rw [← hc]
    exact strContains_joinLines _ _ h2

theorem validateScripts_eq_none_iff (env : Env) (fs : FS) (config : Config) :
    validateScripts env fs config = none ↔
      ∀ p ∈ config.Hooks, ∀ e ∈ p.2, entryResolves env fs e := by
  rw [← collectErrors_eq_nil_iff]
  unfold validateScripts
  cases hc : collectErrors env fs config.Hooks <;> simp

/-! ## Lemmas on the file system -/

theorem writeFile_ok (fs fs' : FS) (dir name content : String)
    (h : fs.writeFile dir name content = .ok fs') :
    (∃ m, fs'.files (joinPath dir name) = some ⟨content, m⟩) ∧
    (∀ q, q ≠ joinPath dir name → fs'.files q = fs.files q) ∧
    fs'.dirs = fs.dirs ∧ fs'.denied = fs.denied := by
  unfold FS.writeFile at h
  simp only at h
  split at h
  · cases h
  · split at h
    · cases h
    · cases h
      refine ⟨⟨_, if_pos rfl⟩, ?_, rfl, rfl⟩
      intro q hq
      simp [hq]

theorem chmodExec_ok (fs fs' : FS) (path : String) (h : fs.chmodExec path = .ok fs') :
    (∃ f, fs.files path = some f ∧ fs'.files path = some ⟨f.content, true⟩) ∧
    (∀ q, q ≠ path → fs'.files q = fs.files q) ∧
    fs'.dirs = fs.dirs ∧ fs'.denied = fs.denied := by
  unfold FS.chmodExec at h
  split at h
  · cases h
  · split at h
    · cases h
    · rename_i f hf
      cases h
      refine ⟨⟨f, hf, by simp⟩, ?_, rfl, rfl⟩
      intro q hq
      simp [hq]

theorem mkdirAll_ok (fs fs' : FS) (dir : String) (h : fs.mkdirAll dir = .ok fs') :
    fs'.files = fs.files ∧ fs'.dirs dir = true ∧ fs'.denied = fs.denied ∧
    (∀ d, fs.dirs d = true → fs'.dirs d = true) := by
  unfold FS.mkdirAll at h
  split at h
  · rename_i hd
    cases h
    exact ⟨rfl, hd, rfl, fun _ hd => hd⟩
  · split at h
    · cases h
    · cases h
      refine ⟨rfl, by simp, rfl, ?_⟩
      intro d hd
      by_cases hdd : d = dir <;> simp [hdd, hd]

theorem remove_ok (fs fs' : FS) (path : String) (h : fs.remove path = .ok fs') :
    fs'.files path = none ∧ (∀ q, q ≠ path → fs'.files q = fs.files q) ∧
    fs'.dirs = fs.dirs ∧ fs'.denied = fs.denied := by
  unfold FS.remove at h
  split at h
  · cases h
  · split at h
    · cases h
    · cases h
      refine ⟨by simp, ?_, rfl, rfl⟩
      intro q hq
      simp [hq]

theorem readFile_ok (fs : FS) (path content : String) (h : fs.readFile path = .ok content) :
    ∃ f, fs.files path = some f ∧ f.content = content := by
  unfold FS.readFile at h
  split at h
  · cases h
  · split at h
    · cases h
    · rename_i f hf
      cases h
      exact ⟨f, hf, rfl⟩

/-! ## Lemmas on install -/

theorem chooseBackupName_some (backupNames : String → List String) (settings : Settings)
    (fs : FS) (hookName name : String)
    (h : chooseBackupName backupNames settings fs hookName = some name) :
    name ∈ backupNames hookName ∧
      fs.files (joinPath settings.BackupDirectory name) = none := by
  unfold chooseBackupName at h
  refine ⟨List.mem_of_find?_eq_some h, ?_⟩
  have hp := List.find?_some h
  simp only [FS.fileExists, Bool.not_eq_true'] at hp
  cases hf : fs.files (joinPath settings.BackupDirectory name) with
  | none => rfl
  | some f => rw [hf] at hp; cases hp

/-- A successful backup leaves a copy of the content of the hook file at a
path of the backup directory that held no file, in a backup directory that
exists, and changes no other file. -/
theorem backupHook_ok (backupNames : String → List String) (settings : Settings)
    (gitDir : String) (fs fs' : FS) (hookName : String) (r : BackupRecord)
    (h : backupHook backupNames settings gitDir fs hookName = .ok (fs', r)) :
    ∃ old name, fs.files (hookPath gitDir hookName) = some old ∧
      name ∈ backupNames hookName ∧
      r = ⟨hookName, joinPath settings.BackupDirectory name, old.content⟩ ∧
      fs.files r.path = none ∧
      (∃ b, fs'.files r.path = some b ∧ b.content = old.content) ∧
      (∀ q, q ≠ r.path → fs'.files q = fs.files q) ∧
      fs'.dirs settings.BackupDirectory = true ∧
      (∀ d, fs.dirs d = true → fs'.dirs d = true) := by
  unfold backupHook at h
  split at h
  · cases h
  · rename_i old hread
    split at h
    · cases h
    · rename_i fs1 hmk
      split at h
      · cases h
      · rename_i name hname
        split at h
        · cases h
        · rename_i fs2 hwrite
          cases h
          obtain ⟨f, hf, hfc⟩ := readFile_ok fs _ old hread
          obtain ⟨hfiles, hdir, _, hmono⟩ := mkdirAll_ok fs fs1 _ hmk
          obtain ⟨hmem, hfree⟩ := chooseBackupName_some backupNames settings fs1 hookName name
            hname
          obtain ⟨⟨m, hm⟩, hframe, hdirs, _⟩ := writeFile_ok fs1 fs' _ _ old hwrite
          refine ⟨f, name, hf, hmem, by rw [hfc], ?_, ⟨⟨old, m⟩, hm, hfc.symm⟩, ?_, ?_, ?_⟩
          · rw [← hfiles]; exact hfree
          · intro q hq
            rw [hframe q hq, hfiles]
          · rw [hdirs]; exact hdir
          · intro d hd
            rw [hdirs]; exact hmono d hd

/-- What a successful installation of one hook leaves behind: the wrapper at
the target, every other existing file as it was, and the backups it made. -/
theorem installHook_ok (backupNames : String → List String) (settings : Settings)
    (gitDir : String) (fs fs' : FS) (hookName : String) (scripts : List HookScript)
    (made : List BackupRecord)
    (h : installHook backupNames settings gitDir fs hookName scripts = .ok (fs', made)) :
    (∃ f, fs'.files (hookPath gitDir hookName) = some f ∧
      f.content = (generateHookScript hookName scripts).1 ∧
      (settings.AutoExecutable = true → f.executable = true)) ∧
    (∀ q f, q ≠ hookPath gitDir hookName → fs.files q = some f → fs'.files q = some f) ∧
    (∀ r ∈ made, r.hookName = hookName ∧
      (∃ name ∈ backupNames hookName, r.path = joinPath settings.BackupDirectory name) ∧
      fs.files r.path = none ∧
      (∃ old, fs.files (hookPath gitDir hookName) = some old ∧ r.content = old.content ∧
        isManagedHook old.content = false) ∧
      (∃ b, fs'.files r.path = some b ∧ b.content = r.content) ∧
      fs'.dirs settings.BackupDirectory = true) ∧
    (settings.BackupExisting = true → ∀ old, fs.files (hookPath gitDir hookName) = some old →
      isManagedHook old.content = false → ∃ r, made = [r]) ∧
    (∀ d, fs.dirs d = true → fs'.dirs d = true) := by
  unfold installHook at h
  simp only at h
  split at h
  · cases h
  · rename_i fs1 made0 hback
    have hgen : generateHookScript hookName scripts =
        ((generateHookScript hookName scripts).1, none) := rfl
    rw [hgen] at h
    simp only at h
    split at h
    · cases h
    · rename_i fs2 hwrite
      obtain ⟨⟨m, hm⟩, hframe2, hdirs2, _⟩ := writeFile_ok fs1 fs2 _ _ _ hwrite
      -- the last step: the executable bits
      have hlast : made = made0 ∧
          (∃ f, fs'.files (hookPath gitDir hookName) = some f ∧
            f.content = (generateHookScript hookName scripts).1 ∧
            (settings.AutoExecutable = true → f.executable = true)) ∧
          (∀ q, q ≠ hookPath gitDir hookName → fs'.files q = fs2.files q) ∧
          fs'.dirs = fs2.dirs := by
        split at h
        · split at h
          · cases h
          · rename_i fs3 hch
            cases h
            obtain ⟨⟨f, hf, hf'⟩, hframe3, hdirs3, _⟩ := chmodExec_ok fs2 fs' _ hch
            have hfc : f.content = (generateHookScript hookName scripts).1 := by
              have := hf.symm.trans hm
              simp only [Option.some.injEq] at this
              rw [this]
            exact ⟨rfl, ⟨_, hf', hfc, fun _ => rfl⟩, hframe3, hdirs3⟩
        · rename_i hauto
          cases h
          exact ⟨rfl, ⟨_, hm, rfl, fun ha => absurd ha hauto⟩, fun _ _ => rfl, rfl⟩
      obtain ⟨hmade, htarget, hframe3, hdirs3⟩ := hlast
      subst hmade
      -- the first step: the backup
      by_cases hcond : (fs.fileExists (hookPath gitDir hookName) && settings.BackupExisting &&
          !managedAt fs (hookPath gitDir hookName)) = true
      · rw [if_pos hcond] at hback
        simp only [Bool.and_eq_true, Bool.not_eq_true'] at hcond
        obtain ⟨⟨hex, hbe⟩, hnot⟩ := hcond
        split at hback
        · cases hback
        · rename_i fsb rec hbk
          cases hback
          obtain ⟨old, name, hold, hname, hrec, hfree, ⟨b, hb, hbc⟩, hframe1, hdir1, hmono1⟩ :=
            backupHook_ok backupNames settings gitDir fs fs1 hookName rec hbk
          have hne : rec.path ≠ hookPath gitDir hookName := by
            intro heq
            rw [heq, hold] at hfree
            cases hfree
          have hnotman : isManagedHook old.content = false := by
            simpa [managedAt, hold] using hnot
          refine ⟨htarget, ?_, ?_, ?_, fun d hd => by rw [hdirs3, hdirs2]; exact hmono1 d hd⟩
          · intro q f hq hqf
            have hqr : q ≠ rec.path := by
              intro heq
              rw [heq, hfree] at hqf
              cases hqf
            rw [hframe3 q hq, hframe2 q hq, hframe1 q hqr]
            exact hqf
          · intro r hr
            simp only [List.mem_singleton] at hr
            subst hr
            refine ⟨by rw [hrec], ⟨name, hname, by rw [hrec]⟩, hfree,
              ⟨old, hold, by rw [hrec], hnotman⟩, ⟨b, ?_, ?_⟩, ?_⟩
            · rw [hframe3 _ hne, hframe2 _ hne]
              exact hb
            · rw [hbc, hrec]
            · rw [hdirs3, hdirs2]; exact hdir1
          · intro _ _ _ _
            exact ⟨rec, rfl⟩
      · rw [if_neg hcond] at hback
        cases hback
        refine ⟨htarget, ?_, ?_, ?_, fun d hd => by rw [hdirs3, hdirs2]; exact hd⟩
        · intro q f hq hqf
          rw [hframe3 q hq, hframe2 q hq]
          exact hqf
        · intro r hr
          simp at hr
        · intro hbe old hold hnotman
          exfalso
          apply hcond
          simp [FS.fileExists, managedAt, hold, hbe, hnotman]

theorem ne_nil_of_isEmpty_false (scripts : List HookScript) (h : ¬ scripts.isEmpty = true) :
    scripts ≠ [] := by
  intro hnil
  subst hnil
  exact h rfl

/-- One step of the loop of `installAll` on a hook with entries. -/
theorem installAll_cons (backupNames : String → List String) (settings : Settings)
    (gitDir : String) (fs fs' : FS) (h0 : String) (s0 : List HookScript) (rest : Hooks)
    (made : List BackupRecord)
    (h : installAll backupNames settings gitDir fs ((h0, s0) :: rest) = .ok (fs', made)) :
    (s0 = [] ∧ installAll backupNames settings gitDir fs rest = .ok (fs', made)) ∨
    (s0 ≠ [] ∧ ∃ fs1 made1 made2,
      installHook backupNames settings gitDir fs h0 s0 = .ok (fs1, made1) ∧
      installAll backupNames settings gitDir fs1 rest = .ok (fs', made2) ∧
      made = made1 ++ made2) := by
  rw [installAll] at h
  split at h
  · rename_i hempty
    left
    refine ⟨?_, h⟩
    cases s0 with
    | nil => rfl
    | cons _ _ => cases hempty
  · rename_i hempty
    right
    refine ⟨ne_nil_of_isEmpty_false s0 hempty, ?_⟩
    split at h
    · cases h
    · rename_i fs1 made1 hstep
      split at h
      · cases h
      · rename_i fs2 made2 hrest
        cases h
        exact ⟨fs1, made1, made2, hstep, hrest, rfl⟩

/-- A successful install changes no existing file other than the hook files
of the hooks it installs. -/
theorem installAll_keeps (backupNames : String → List String) (settings : Settings)
    (gitDir : String) (q : String) (f : File) (hooks : Hooks) :
    ∀ fs fs' made, installAll backupNames settings gitDir fs hooks = .ok (fs', made) →
      fs.files q = some f →
      (∀ p ∈ hooks, p.2 ≠ [] → hookPath gitDir p.1 ≠ q) →
      fs'.files q = some f := by
  induction hooks with
  | nil =>
    intro fs fs' made h hq _
    simp only [installAll] at h
    cases h
    exact hq
  | cons p rest ih =>
    obtain ⟨h0, s0⟩ := p
    intro fs fs' made h hq hpaths
    have hpaths' : ∀ p ∈ rest, p.2 ≠ [] → hookPath gitDir p.1 ≠ q :=
      fun p hp => hpaths p (List.mem_cons_of_mem _ hp)
    rcases installAll_cons backupNames settings gitDir fs fs' h0 s0 rest made h with
      ⟨_, hrest⟩ | ⟨hne, fs1, made1, made2, hstep, hrest, _⟩
    · exact ih fs fs' made hrest hq hpaths'
    · obtain ⟨_, hkeep, _, _, _⟩ :=
        installHook_ok backupNames settings gitDir fs fs1 h0 s0 made1 hstep
      exact ih fs1 fs' made2 hrest
        (hkeep q f (Ne.symm (hpaths (h0, s0) (List.mem_cons_self _ _) hne)) hq) hpaths'

/-- A successful install keeps the directories that exist. -/
theorem installAll_dirs (backupNames : String → List String) (settings : Settings)
    (gitDir : String) (d : String) (hooks : Hooks) :
    ∀ fs fs' made, installAll backupNames settings gitDir fs hooks = .ok (fs', made) →
      fs.dirs d = true → fs'.dirs d = true := by
  induction hooks with
  | nil =>
    intro fs fs' made h hd
    simp only [installAll] at h
    cases h
    exact hd
  | cons p rest ih =>
    obtain ⟨h0, s0⟩ := p
    intro fs fs' made h hd
    rcases installAll_cons backupNames settings gitDir fs fs' h0 s0 rest made h with
      ⟨_, hrest⟩ | ⟨_, fs1, made1, made2, hstep, hrest, _⟩
    · exact ih fs fs' made hrest hd
    · obtain ⟨_, _, _, _, hmono⟩ :=
        installHook_ok backupNames settings gitDir fs fs1 h0 s0 made1 hstep
      exact ih fs1 fs' made2 hrest (hmono d hd)

/-- After a successful install the hook file of a configured hook with
entries is its generated wrapper, provided that no other installed hook has
the same hook file. -/
theorem installAll_target (backupNames : String → List String) (settings : Settings)
    (gitDir : String) (h : String) (scripts : List HookScript) (hne : scripts ≠ [])
    (hooks : Hooks) :
    ∀ fs fs' made, installAll backupNames settings gitDir fs hooks = .ok (fs', made) →
      (∀ p ∈ hooks, p ≠ (h, scripts) → p.2 ≠ [] →
        hookPath gitDir p.1 ≠ hookPath gitDir h) →
      ((h, scripts) ∈ hooks ∨
        ∃ f, fs.files (hookPath gitDir h) = some f ∧
          f.content = (generateHookScript h scripts).1 ∧
          (settings.AutoExecutable = true → f.executable = true)) →
      ∃ f, fs'.files (hookPath gitDir h) = some f ∧
        f.content = (generateHookScript h scripts).1 ∧
        (settings.AutoExecutable = true → f.executable = true) := by
  induction hooks with
  | nil =>
    intro fs fs' made hrun _ hor
    simp only [installAll] at hrun
    cases hrun
    rcases hor with hmem | hgood
    · simp at hmem
    · exact hgood
  | cons p rest ih =>
    obtain ⟨h0, s0⟩ := p
    intro fs fs' made hrun hpaths hor
    have hpaths' : ∀ p ∈ rest, p ≠ (h, scripts) → p.2 ≠ [] →
        hookPath gitDir p.1 ≠ hookPath gitDir h :=
      fun p hp => hpaths p (List.mem_cons_of_mem _ hp)
    by_cases hp : (h0, s0) = (h, scripts)
    · simp only [Prod.mk.injEq] at hp
      obtain ⟨rfl, rfl⟩ := hp
      rcases installAll_cons backupNames settings gitDir fs fs' h0 s0 rest made hrun with
        ⟨hnil, _⟩ | ⟨_, fs1, made1, made2, hstep, hrest, _⟩
      · exact absurd hnil hne
      · obtain ⟨hgood, _, _, _, _⟩ :=
          installHook_ok backupNames settings gitDir fs fs1 h0 s0 made1 hstep
        exact ih fs1 fs' made2 hrest hpaths' (Or.inr hgood)
    · have hor' : (h, scripts) ∈ rest ∨
          ∃ f, fs.files (hookPath gitDir h) = some f ∧
            f.content = (generateHookScript h scripts).1 ∧
            (settings.AutoExecutable = true → f.executable = true) := by
        rcases hor with hmem | hgood
        · rcases List.mem_cons.mp hmem with heq | hin
          · exact absurd heq.symm hp
          · exact Or.inl hin
        · exact Or.inr hgood
      rcases installAll_cons backupNames settings gitDir fs fs' h0 s0 rest made hrun with
        ⟨_, hrest⟩ | ⟨hne0, fs1, made1, made2, hstep, hrest, _⟩
      · exact ih fs fs' made hrest hpaths' hor'
      · obtain ⟨_, hkeep, _, _, _⟩ :=
          installHook_ok backupNames settings gitDir fs fs1 h0 s0 made1 hstep
        refine ih fs1 fs' made2 hrest hpaths' ?_
        rcases hor' with hin | ⟨f, hf, hfc, hfx⟩
        · exact Or.inl hin
        · exact Or.inr ⟨f, hkeep _ f
            (Ne.symm (hpaths (h0, s0) (List.mem_cons_self _ _) hp hne0)) hf, hfc, hfx⟩

/-- Every backup that a successful install makes is a copy of a file that is
not a generated wrapper, made for an installed hook under one of its backup
names; the backup directory exists; and the copy is still in place at the end
when its path is not the hook file of an installed hook. -/
theorem installAll_made (backupNames : String → List String) (settings : Settings)
    (gitDir : String) (hooks : Hooks) :
    ∀ fs fs' made, installAll backupNames settings gitDir fs hooks = .ok (fs', made) →
      ∀ r ∈ made,
        isManagedHook r.content = false ∧
        fs'.dirs settings.BackupDirectory = true ∧
        (∃ p ∈ hooks, p.2 ≠ [] ∧ r.hookName = p.1 ∧
          ∃ name ∈ backupNames p.1, r.path = joinPath settings.BackupDirectory name) ∧
        ((∀ p ∈ hooks, p.2 ≠ [] → hookPath gitDir p.1 ≠ r.path) →
          ∃ b, fs'.files r.path = some b ∧ b.content = r.content) := by
  induction hooks with
  | nil =>
    intro fs fs' made h r hr
    simp only [installAll] at h
    cases h
    simp at hr
  | cons p rest ih =>
    obtain ⟨h0, s0⟩ := p
    intro fs fs' made h r hr
    rcases installAll_cons backupNames settings gitDir fs fs' h0 s0 rest made h with
      ⟨_, hrest⟩ | ⟨hne, fs1, made1, made2, hstep, hrest, hmade⟩
    · obtain ⟨h1, h2, ⟨p, hp, hp'⟩, h4⟩ := ih fs fs' made hrest r hr
      exact ⟨h1, h2, ⟨p, List.mem_cons_of_mem _ hp, hp'⟩,
        fun hpaths => h4 (fun p hp => hpaths p (List.mem_cons_of_mem _ hp))⟩
    · rw [hmade] at hr
      rcases List.mem_append.mp hr with hr1 | hr2
      · obtain ⟨_, _, hrec, _, _⟩ :=
          installHook_ok backupNames settings gitDir fs fs1 h0 s0 made1 hstep
        obtain ⟨hname, hpath, _, ⟨old, _, hcontent, hnotman⟩, ⟨b, hb, hbc⟩, hdir⟩ := hrec r hr1
        refine ⟨by rw [hcontent]; exact hnotman,
          installAll_dirs backupNames settings gitDir _ rest fs1 fs' made2 hrest hdir,
          ⟨(h0, s0), List.mem_cons_self _ _, hne, hname, hpath⟩, ?_⟩
        intro hpaths
        exact ⟨b, installAll_keeps backupNames settings gitDir r.path b rest fs1 fs' made2 hrest
          hb (fun p hp => hpaths p (List.mem_cons_of_mem _ hp)), hbc⟩
      · obtain ⟨h1, h2, ⟨p, hp, hp'⟩, h4⟩ := ih fs1 fs' made2 hrest r hr2
        exact ⟨h1, h2, ⟨p, List.mem_cons_of_mem _ hp, hp'⟩,
          fun hpaths => h4 (fun p hp => hpaths p (List.mem_cons_of_mem _ hp))⟩

/-- With backups enabled, a successful install makes a backup of the file
that exists at the target of a configured hook with entries, when the file is
not a generated wrapper and no other installed hook has the same hook file. -/
theorem installAll_backup_made (backupNames : String → List String) (settings : Settings)
    (gitDir : String) (h : String) (scripts : List HookScript) (hne : scripts ≠ [])
    (hbe : settings.BackupExisting = true) (old : File)
    (hnotman : isManagedHook old.content = false) (hooks : Hooks) :
    ∀ fs fs' made, installAll backupNames settings gitDir fs hooks = .ok (fs', made) →
      (h, scripts) ∈ hooks →
      fs.files (hookPath gitDir h) = some old →
      (∀ p ∈ hooks, p ≠ (h, scripts) → p.2 ≠ [] →
        hookPath gitDir p.1 ≠ hookPath gitDir h) →
      ∃ r ∈ made, r.hookName = h ∧ r.content = old.content ∧
        ∃ name ∈ backupNames h, r.path = joinPath settings.BackupDirectory name := by
  induction hooks with
  | nil => intro fs fs' made _ hmem; simp at hmem
  | cons p rest ih =>
    obtain ⟨h0, s0⟩ := p
    intro fs fs' made hrun hmem hold hpaths
    have hpaths' : ∀ p ∈ rest, p ≠ (h, scripts) → p.2 ≠ [] →
        hookPath gitDir p.1 ≠ hookPath gitDir h :=
      fun p hp => hpaths p (List.mem_cons_of_mem _ hp)
    by_cases hp : (h0, s0) = (h, scripts)
    · simp only [Prod.mk.injEq] at hp
      obtain ⟨rfl, rfl⟩ := hp
      rcases installAll_cons backupNames settings gitDir fs fs' h0 s0 rest made hrun with
        ⟨hnil, _⟩ | ⟨_, fs1, made1, made2, hstep, hrest, hmade⟩
      · exact absurd hnil hne
      · obtain ⟨_, _, hrec, hdoes, _⟩ :=
          installHook_ok backupNames settings gitDir fs fs1 h0 s0 made1 hstep
        obtain ⟨r, hr⟩ := hdoes hbe old hold hnotman
        have hrmem : r ∈ made1 := by rw [hr]; exact List.mem_singleton_self r
        obtain ⟨hname, hpath, _, ⟨old', hold', hcontent, _⟩, _, _⟩ := hrec r hrmem
        have heq : old' = old := by
          have := hold'.symm.trans hold
          simpa using this
        refine ⟨r, ?_, hname, by rw [hcontent, heq], hpath⟩
        rw [hmade]
        exact List.mem_append_left _ hrmem
    · have hmem' : (h, scripts) ∈ rest := by
        rcases List.mem_cons.mp hmem with heq | hin
        · exact absurd heq.symm hp
        · exact hin
      rcases installAll_cons backupNames settings gitDir fs fs' h0 s0 rest made hrun with
        ⟨_, hrest⟩ | ⟨hne0, fs1, made1, made2, hstep, hrest, hmade⟩
      · exact ih fs fs' made hrest hmem' hold hpaths'
      · obtain ⟨_, hkeep, _, _, _⟩ :=
          installHook_ok backupNames settings gitDir fs fs1 h0 s0 made1 hstep
        obtain ⟨r, hr, hprops⟩ := ih fs1 fs' made2 hrest hmem'
          (hkeep _ old (Ne.symm (hpaths (h0, s0) (List.mem_cons_self _ _) hp hne0)) hold)
          hpaths'
        exact ⟨r, by rw [hmade]; exact List.mem_append_right _ hr, hprops⟩

/-- After a successful install the hook file of every installed hook is a
generated wrapper, and so is every file that was one before. -/
theorem installAll_managed (backupNames : String → List String) (settings : Settings)
    (gitDir : String) (q : String) (hooks : Hooks) :
    ∀ fs fs' made, installAll backupNames settings gitDir fs hooks = .ok (fs', made) →
      (managedAt fs q = true ∨ ∃ p ∈ hooks, p.2 ≠ [] ∧ hookPath gitDir p.1 = q) →
      managedAt fs' q = true := by
  have hstepOk : ∀ (fs fs1 : FS) (h0 : String) (s0 : List HookScript)
      (made1 : List BackupRecord),
      installHook backupNames settings gitDir fs h0 s0 = .ok (fs1, made1) →
      (managedAt fs q = true ∨ hookPath gitDir h0 = q) → managedAt fs1 q = true := by
    intro fs fs1 h0 s0 made1 hstep hor
    obtain ⟨⟨f, hf, hfc, _⟩, hkeep, _, _, _⟩ :=
      installHook_ok backupNames settings gitDir fs fs1 h0 s0 made1 hstep
    by_cases hq : q = hookPath gitDir h0
    · subst hq
      have hsig := generateHookScript_contains_signature h0 s0
      rw [← hfc] at hsig
      simp [managedAt, hf, isManagedHook, hsig]
    · rcases hor with hman | heq
      · cases hfq : fs.files q with
        | none => simp [managedAt, hfq] at hman
        | some g =>
          have hg := hkeep q g hq hfq
          simp only [managedAt, hfq] at hman
          simp only [managedAt, hg]
          exact hman
      · exact absurd heq.symm hq
  induction hooks with
  | nil =>
    intro fs fs' made h hor
    simp only [installAll] at h
    cases h
    rcases hor with hman | ⟨p, hp, _⟩
    · exact hman
    · simp at hp
  | cons p rest ih =>
    obtain ⟨h0, s0⟩ := p
    intro fs fs' made h hor
    rcases installAll_cons backupNames settings gitDir fs fs' h0 s0 rest made h with
      ⟨hnil, hrest⟩ | ⟨hne, fs1, made1, made2, hstep, hrest, _⟩
    · refine ih fs fs' made hrest ?_
      rcases hor with hman | ⟨p, hp, hpne, hpq⟩
      · exact Or.inl hman
      · rcases List.mem_cons.mp hp with heq | hin
        · subst heq
          exact absurd hnil hpne
        · exact Or.inr ⟨p, hin, hpne, hpq⟩
    · refine ih fs1 fs' made2 hrest ?_
      rcases hor with hman | ⟨p, hp, hpne, hpq⟩
      · exact Or.inl (hstepOk fs fs1 h0 s0 made1 hstep (Or.inl hman))
      · rcases List.mem_cons.mp hp with heq | hin
        · subst heq
          exact Or.inl (hstepOk fs fs1 _ _ made1 hstep (Or.inr hpq))
        · exact Or.inr ⟨p, hin, hpne, hpq⟩

/-- A successful `InstallHooks` is a successful run of the loop, and
`InstallBackups` is the list of the backups that the run made. -/
theorem InstallHooks_ok (env : Env) (backupNames : String → List String) (hm : HookManager)
    (fs fs' : FS) (config : Config) (gitDir : String)
    (hinit : hm.init env = .ok (config, gitDir))
    (hrun : InstallHooks env backupNames hm fs = .ok fs') :
    installAll backupNames config.Settings gitDir fs config.Hooks =
      .ok (fs', InstallBackups env backupNames hm fs) := by
  unfold InstallHooks at hrun
  unfold InstallBackups
  rw [hinit] at hrun ⊢
  simp only at hrun ⊢
  cases hall : installAll backupNames config.Settings gitDir fs config.Hooks with
  | error e => rw [hall] at hrun; cases hrun
  | ok res =>
    obtain ⟨fs1, made⟩ := res
    rw [hall] at hrun
    cases hrun
    rfl

/-! ## Lemmas on uninstall -/

/-- One step of uninstall: the hook file is removed when it is a generated
wrapper, and nothing else changes. -/
theorem uninstallHook_ok (gitDir : String) (fs fs' : FS) (hookName : String)
    (h : uninstallHook gitDir fs hookName = .ok fs') :
    fs'.denied = fs.denied ∧
    ∀ q, (q = hookPath gitDir hookName ∧ managedAt fs q = true ∧ fs'.files q = none) ∨
      ((q ≠ hookPath gitDir hookName ∨ managedAt fs q = false) ∧ fs'.files q = fs.files q) := by
  unfold uninstallHook at h
  split at h
  · rename_i hex
    cases h
    refine ⟨rfl, fun q => Or.inr ⟨?_, rfl⟩⟩
    by_cases hq : q = hookPath gitDir hookName
    · right
      subst hq
      simp only [FS.fileExists, Bool.not_eq_true'] at hex
      cases hf : fs.files (hookPath gitDir hookName) with
      | none => simp [managedAt, hf]
      | some f => rw [hf] at hex; cases hex
    · exact Or.inl hq
  · split at h
    · cases h
    · rename_i content hread
      obtain ⟨f, hf, hfc⟩ := readFile_ok fs _ content hread
      split at h
      · rename_i hman
        obtain ⟨hnone, hframe, _, hden⟩ := remove_ok fs fs' _ h
        refine ⟨hden, fun q => ?_⟩
        by_cases hq : q = hookPath gitDir hookName
        · left
          subst hq
          exact ⟨rfl, by simp [managedAt, hf, hfc, hman], hnone⟩
        · exact Or.inr ⟨Or.inl hq, hframe q hq⟩
      · rename_i hman
        cases h
        refine ⟨rfl, fun q => Or.inr ⟨?_, rfl⟩⟩
        by_cases hq : q = hookPath gitDir hookName
        · right
          subst hq
          simp [managedAt, hf, hfc] at hman ⊢
          exact hman
        · exact Or.inl hq

/-- What a successful uninstall does to the file at a path: it is removed when
it is a generated wrapper at the path of a configured hook, and it is left as
it is otherwise. -/
theorem uninstallAll_files (gitDir : String) (q : String) (hooks : Hooks) :
    ∀ fs fs', uninstallAll gitDir fs hooks = .ok fs' →
      ((∃ p ∈ hooks, hookPath gitDir p.1 = q) → managedAt fs q = true →
        fs'.files q = none) ∧
      ((managedAt fs q = false ∨ ∀ p ∈ hooks, hookPath gitDir p.1 ≠ q) →
        fs'.files q = fs.files q) := by
  induction hooks with
  | nil =>
    intro fs fs' h
    simp only [uninstallAll] at h
    cases h
    exact ⟨fun ⟨p, hp, _⟩ => by simp at hp, fun _ => rfl⟩
  | cons p rest ih =>
    obtain ⟨h0, s0⟩ := p
    intro fs fs' h
    rw [uninstallAll] at h
    split at h
    · cases h
    · rename_i fs1 hstep
      obtain ⟨_, hq⟩ := uninstallHook_ok gitDir fs fs1 h0 hstep
      obtain ⟨ihA, ihB⟩ := ih fs1 fs' h
      have hgone : fs1.files q = none → fs'.files q = none := by
        intro hnone
        rw [ihB (Or.inl (by simp [managedAt, hnone]))]
        exact hnone
      constructor
      · rintro ⟨p, hp, hpq⟩ hman
        rcases hq q with ⟨_, _, hnone⟩ | ⟨_, hsame⟩
        · exact hgone hnone
        · rcases List.mem_cons.mp hp with heq | hin
          · subst heq
            rcases hq q with ⟨_, _, hnone⟩ | ⟨hor, _⟩
            · exact hgone hnone
            · rcases hor with hne | hnot
              · exact absurd hpq.symm hne
              · rw [hman] at hnot; cases hnot
          · have hman1 : managedAt fs1 q = true := by
              simp only [managedAt, hsame] at hman ⊢
              exact hman
            exact ihA ⟨p, hin, hpq⟩ hman1
      · intro hor
        rcases hq q with ⟨heq, hman, _⟩ | ⟨_, hsame⟩
        · rcases hor with hnot | hall
          · rw [hman] at hnot; cases hnot
          · exact absurd heq.symm (hall (h0, s0) (List.mem_cons_self _ _))
        · rw [← hsame]
          apply ihB
          rcases hor with hnot | hall
          · left
            simp only [managedAt, hsame] at hnot ⊢
            exact hnot
          · exact Or.inr (fun p hp => hall p (List.mem_cons_of_mem _ hp))

/-- Uninstall does not fail when no configured hook path is one on which
operations fail: a missing file is never an error. -/
theorem uninstallAll_succeeds (gitDir : String) (hooks : Hooks) :
    ∀ fs, (∀ p ∈ hooks, fs.denied (hookPath gitDir p.1) = false) →
      ∃ fs', uninstallAll gitDir fs hooks = .ok fs' := by
  induction hooks with
  | nil => intro fs _; exact ⟨fs, rfl⟩
  | cons p rest ih =>
    obtain ⟨h0, s0⟩ := p
    intro fs hden
    have hd0 : fs.denied (hookPath gitDir h0) = false := hden (h0, s0) (List.mem_cons_self _ _)
    have hstep : ∃ fs1, uninstallHook gitDir fs h0 = .ok fs1 := by
      unfold uninstallHook
      cases hf : fs.files (hookPath gitDir h0) with
      | none => exact ⟨fs, by simp [FS.fileExists, hf]⟩
      | some f =>
        by_cases hman : isManagedHook f.content = true
        · simp [FS.fileExists, FS.readFile, FS.remove, hf, hd0, hman]
        · exact ⟨fs, by simp [FS.fileExists, FS.readFile, hf, hd0, hman]⟩
    obtain ⟨fs1, hfs1⟩ := hstep
    obtain ⟨hden1, _⟩ := uninstallHook_ok gitDir fs fs1 h0 hfs1
    obtain ⟨fs', hfs'⟩ := ih fs1 (fun p hp => by
      rw [hden1]; exact hden p (List.mem_cons_of_mem _ hp))
    exact ⟨fs', by rw [uninstallAll, hfs1]; exact hfs'⟩

theorem uninstallAll_missing (gitDir : String) (hooks : Hooks) (fs : FS)
    (hmiss : ∀ p ∈ hooks, fs.files (hookPath gitDir p.1) = none) :
    uninstallAll gitDir fs hooks = .ok fs := by
  induction hooks with
  | nil => rfl
  | cons p rest ih =>
    obtain ⟨h0, s0⟩ := p
    have h0miss := hmiss (h0, s0) (List.mem_cons_self _ _)
    have hstep : uninstallHook gitDir fs h0 = .ok fs := by
      simp [uninstallHook, FS.fileExists, h0miss]
    rw [uninstallAll, hstep]
    exact ih (fun p hp => hmiss p (List.mem_cons_of_mem _ hp))

/-! ## Claims on the wrapper generator -/

/-- C3: for every hook name and every list of entries, the empty list
included, `generateHookScript` returns no error and a content that starts
with the POSIX shebang "#!/bin/sh" and contains the signature
"Generated by hooky". -/
theorem generateHookScript_shebang_and_signature (hookName : String)
    (scripts : List HookScript) :
    (generateHookScript hookName scripts).2 = none ∧
    startsWith (generateHookScript hookName scripts).1 "#!/bin/sh" ∧
    strContains (generateHookScript hookName scripts).1 "Generated by hooky" := by
  refine ⟨rfl, ?_, generateHookScript_contains_signature hookName scripts⟩
  unfold generateHookScript
  exact startsWith_append_right _ _ _ (by decide)

/-- C4: the content returned by `generateHookScript` is a header followed by
one block per entry, in the order of the entries, and the block of an entry
holds the marker "Running: name" followed by the entry's invocation: the
script string with its trailing arguments verbatim when the entry has a
script, the literal command string otherwise. -/
theorem generateHookScript_blocks_in_order (hookName : String) (scripts : List HookScript) :
    ∃ (header : String) (blocks : List String),
      (generateHookScript hookName scripts).1 = header ++ concatAll blocks ∧
      List.Forall₂
        (fun script block => ∃ a b c : String,
          block = a ++ "Running: " ++ script.Name ++ b ++
            (if script.Script ≠ "" then script.Script else script.Command) ++ c)
        scripts blocks := by
  refine ⟨wrapperHeader, scripts.map entryBlock, rfl, ?_⟩
  induction scripts with
  | nil => exact List.Forall₂.nil
  | cons x rest ih =>
    refine List.Forall₂.cons ⟨"echo \"", "\"\n", "\n# " ++ x.Description ++ "\n", ?_⟩ ih
    rw [entryBlock_shape]
    unfold invocation
    by_cases hs : x.Script = "" <;> simp [hs]

/-! ## Claims on the validator -/

/-- C7: `validateScripts` is aggregate.  It returns no error exactly when no
entry of any hook is invalid, and otherwise the one error it returns mentions
every problem: for every hook `h` and every index `i`, a missing script file
of the entry at `h[i]` and an unresolved command of the entry at `h[i]` each
occur in the message. -/
theorem validateScripts_aggregate (env : Env) (fs : FS) (config : Config) :
    (validateScripts env fs config = none ↔
      ∀ p ∈ config.Hooks, ∀ e ∈ p.2,
        (e.Script ≠ "" → fs.fileExists (firstField e.Script) = true) ∧
        (e.Command ≠ "" → env.lookPath (firstField e.Command) = true)) ∧
    (∀ (h : String) (es : List HookScript) (i : Nat) (e : HookScript),
      (h, es) ∈ config.Hooks → es[i]? = some e →
      (e.Script ≠ "" → fs.fileExists (firstField e.Script) = false →
        ∃ msg, validateScripts env fs config = some msg ∧
          strContains msg ("hook " ++ h ++ "[" ++ toString i ++ "]: script file '" ++
            firstField e.Script ++ "' not found")) ∧
      (e.Command ≠ "" → env.lookPath (firstField e.Command) = false →
        ∃ msg, validateScripts env fs config = some msg ∧
          strContains msg ("hook " ++ h ++ "[" ++ toString i ++ "]: command '" ++
            firstField e.Command ++ "' not found in PATH"))) := by
  refine ⟨validateScripts_eq_none_iff env fs config, ?_⟩
  intro h es i e hmem hi
  constructor
  · intro hs hf
    refine validateScripts_mentions env fs config h es i e hmem hi _ ?_
    unfold checkEntry
    simp [hs, hf]
  · intro hc hl
    refine validateScripts_mentions env fs config h es i e hmem hi _ ?_
    unfold checkEntry
    simp [hc, hl]

/-- C8: `validateScripts` looks only at the first token of an entry.  Let `e`
be the entry at index `i` of a configured hook, and `tok` a non-empty string
without white space.  When the script of `e` is `tok` or `tok`, a space and
arguments (and `e` has no command), the configuration whose only entry is `e`
is accepted exactly when the file `tok` exists, and when it does not exist the
error for the whole configuration contains "script file 'tok' not found".
When the command of `e` has that form (and `e` has no script), the same holds
with the search path and "command 'tok' not found in PATH". -/
theorem validateScripts_first_token (env : Env) (fs : FS) (hooks : Hooks)
    (settings : Settings) (h : String) (es : List HookScript) (i : Nat) (e : HookScript)
    (tok : String)
    (hmem : (h, es) ∈ hooks) (hi : es[i]? = some e)
    (hne : tok ≠ "") (hns : ∀ c ∈ tok.data, isSpace c = false) :
    ((e.Script = tok ∨ ∃ args : String, e.Script = tok ++ " " ++ args) → e.Command = "" →
      (validateScripts env fs ⟨[(h, [e])], settings⟩ = none ↔ fs.fileExists tok = true) ∧
      (fs.fileExists tok = false →
        ∃ msg, validateScripts env fs ⟨hooks, settings⟩ = some msg ∧
          strContains msg ("script file '" ++ tok ++ "' not found"))) ∧
    ((e.Command = tok ∨ ∃ args : String, e.Command = tok ++ " " ++ args) → e.Script = "" →
      (validateScripts env fs ⟨[(h, [e])], settings⟩ = none ↔ env.lookPath tok = true) ∧
      (env.lookPath tok = false →
        ∃ msg, validateScripts env fs ⟨hooks, settings⟩ = some msg ∧
          strContains msg ("command '" ++ tok ++ "' not found in PATH"))) := by
  have hnonempty : ∀ s : String, (s = tok ∨ ∃ args : String, s = tok ++ " " ++ args) →
      s ≠ "" := by
    intro s hform hs
    have htd : tok.data ≠ [] := fun hd => hne (String.ext (by simpa using hd))
    rcases hform with rfl | ⟨args, rfl⟩
    · exact hne hs
    · have := congrArg String.data hs
      simp only [String.data_append, List.append_assoc] at this
      exact htd (List.append_eq_nil.mp this).1
  constructor
  · intro hform hcmd
    have hff : firstField e.Script = tok := firstField_token tok e.Script hne hns hform
    have hs : e.Script ≠ "" := hnonempty _ hform
    constructor
    · rw [validateScripts_eq_none_iff]
      simp [entryResolves, hff, hs, hcmd]
    · intro hf
      obtain ⟨msg, hmsg, hcont⟩ := validateScripts_mentions env fs ⟨hooks, settings⟩ h es i e
        hmem hi ("hook " ++ h ++ "[" ++ toString i ++ "]: script file '" ++ tok ++
          "' not found") (by unfold checkEntry; simp [hs, hff, hf])
      refine ⟨msg, hmsg, strContains_trans _ _ _ hcont ?_⟩
      have hsplit : "]: script file '" = "]: " ++ "script file '" := by decide
      rw [hsplit]
      simp only [← String.append_assoc]
      rw [String.append_assoc _ "script file '" tok, String.append_assoc _ _ "' not found"]
      exact strContains_append_left _ _ _ (strContains_self _)
  · intro hform hscr
    have hff : firstField e.Command = tok := firstField_token tok e.Command hne hns hform
    have hc : e.Command ≠ "" := hnonempty _ hform
    constructor
    · rw [validateScripts_eq_none_iff]
      simp [entryResolves, hff, hc, hscr]
    · intro hf
      obtain ⟨msg, hmsg, hcont⟩ := validateScripts_mentions env fs ⟨hooks, settings⟩ h es i e
        hmem hi ("hook " ++ h ++ "[" ++ toString i ++ "]: command '" ++ tok ++
          "' not found in PATH") (by unfold checkEntry; simp [hc, hff, hf, hscr])
      refine ⟨msg, hmsg, strContains_trans _ _ _ hcont ?_⟩
      have hsplit : "]: command '" = "]: " ++ "command '" := by decide
      rw [hsplit]
      simp only [← String.append_assoc]
      rw [String.append_assoc _ "command '" tok, String.append_assoc _ _ "' not found in PATH"]
      exact strContains_append_left _ _ _ (strContains_self _)

/-! ## Claims on install and uninstall -/

/-- C5, amended: for every configured hook `h` with a non-empty entry list
whose hook file is not also the hook file of another configured hook with
entries, a successful `InstallHooks` leaves at `<gitDir>/hooks/<h>` a file
whose content is the wrapper generated for the entries of `h`; the content
holds the signature "Generated by hooky" and the script path, or else the
command, of every entry, and the file is executable when `autoExecutable` is
enabled. -/
theorem InstallHooks_writes_wrapper (env : Env) (backupNames : String → List String)
    (hm : HookManager) (fs fs' : FS) (config : Config) (gitDir : String)
    (h : String) (scripts : List HookScript)
    (hinit : hm.init env = .ok (config, gitDir))
    (hrun : InstallHooks env backupNames hm fs = .ok fs')
    (hmem : (h, scripts) ∈ config.Hooks) (hne : scripts ≠ [])
    (hpaths : ∀ p ∈ config.Hooks, p ≠ (h, scripts) → p.2 ≠ [] →
      hookPath gitDir p.1 ≠ hookPath gitDir h) :
    ∃ f, fs'.files (hookPath gitDir h) = some f ∧
      f.content = (generateHookScript h scripts).1 ∧
      strContains f.content "Generated by hooky" ∧
      (∀ e ∈ scripts, (e.Script ≠ "" → strContains f.content e.Script) ∧
        (e.Script = "" → strContains f.content e.Command)) ∧
      (config.Settings.AutoExecutable = true → f.executable = true) := by
  have hall := InstallHooks_ok env backupNames hm fs fs' config gitDir hinit hrun
  obtain ⟨f, hf, hfc, hfx⟩ := installAll_target backupNames config.Settings gitDir h scripts hne
    config.Hooks fs fs' _ hall hpaths (Or.inl hmem)
  refine ⟨f, hf, hfc, ?_, ?_, hfx⟩
  · rw [hfc]
    exact generateHookScript_contains_signature h scripts
  · intro e he
    have hinv := generateHookScript_contains_invocation h scripts e he
    rw [← hfc] at hinv
    unfold invocation at hinv
    constructor
    · intro hs
      simpa [hs] using hinv
    · intro hs
      simpa [hs] using hinv

/-- C6: after a successful `UninstallHooks`, for every configured hook name, a
hook file that contained "Generated by hooky" no longer exists, a hook file
without the signature still exists with its content and mode unchanged, and a
missing hook file stays missing; missing files cause no error: when no
configured hook path is one on which file operations fail the uninstall
succeeds, and when every configured hook file is missing it succeeds and
changes nothing. -/
theorem UninstallHooks_removes_iff_signature (env : Env) (hm : HookManager) (fs fs' : FS)
    (config : Config) (gitDir : String) (h : String) (scripts : List HookScript)
    (hinit : hm.init env = .ok (config, gitDir))
    (hrun : UninstallHooks env hm fs = .ok fs')
    (hmem : (h, scripts) ∈ config.Hooks) :
    (∀ f, fs.files (hookPath gitDir h) = some f →
      strContains f.content "Generated by hooky" → fs'.files (hookPath gitDir h) = none) ∧
    (∀ f, fs.files (hookPath gitDir h) = some f →
      ¬ strContains f.content "Generated by hooky" →
      fs'.files (hookPath gitDir h) = some f) ∧
    (fs.files (hookPath gitDir h) = none → fs'.files (hookPath gitDir h) = none) ∧
    (∀ fs0 : FS, (∀ p ∈ config.Hooks, fs0.denied (hookPath gitDir p.1) = false) →
      ∃ fs1, UninstallHooks env hm fs0 = .ok fs1) ∧
    (∀ fs0 : FS, (∀ p ∈ config.Hooks, fs0.files (hookPath gitDir p.1) = none) →
      UninstallHooks env hm fs0 = .ok fs0) := by
  unfold UninstallHooks at hrun
  rw [hinit] at hrun
  obtain ⟨hA, hB⟩ := uninstallAll_files gitDir (hookPath gitDir h) config.Hooks fs fs' hrun
  refine ⟨?_, ?_, ?_, ?_, ?_⟩
  · intro f hf hsig
    exact hA ⟨(h, scripts), hmem, rfl⟩ (by simp [managedAt, hf, isManagedHook, signature, hsig])
  · intro f hf hsig
    rw [hB (Or.inl (by simp [managedAt, hf, isManagedHook, signature, hsig]))]
    exact hf
  · intro hf
    rw [hB (Or.inl (by simp [managedAt, hf]))]
    exact hf
  · intro fs0 hden
    unfold UninstallHooks
    rw [hinit]
    exact uninstallAll_succeeds gitDir config.Hooks fs0 hden
  · intro fs0 hmiss
    unfold UninstallHooks
    rw [hinit]
    exact uninstallAll_missing gitDir config.Hooks fs0 hmiss

/-- C9, amended: when `backupExisting` is enabled and a file that is not a
generated wrapper already exists at the target path of a configured hook `h`
with a non-empty entry list, where the target is not also the hook file of
another configured hook with entries and the backup of `h` is not made at the
hook file of a configured hook with entries, a successful `InstallHooks`
copies that file into the backup directory before overwriting it: afterwards
the backup directory exists, the backup copy made for `h` holds the
pre-existing content, and the target path holds the wrapper generated for
`h`. -/
theorem InstallHooks_backs_up_existing (env : Env) (backupNames : String → List String)
    (hm : HookManager) (fs fs' : FS) (config : Config) (gitDir : String)
    (h : String) (scripts : List HookScript) (old : File)
    (hinit : hm.init env = .ok (config, gitDir))
    (hrun : InstallHooks env backupNames hm fs = .ok fs')
    (hmem : (h, scripts) ∈ config.Hooks) (hne : scripts ≠ [])
    (hbe : config.Settings.BackupExisting = true)
    (hold : fs.files (hookPath gitDir h) = some old)
    (hforeign : ¬ strContains old.content "Generated by hooky")
    (hpaths : ∀ p ∈ config.Hooks, p ≠ (h, scripts) → p.2 ≠ [] →
      hookPath gitDir p.1 ≠ hookPath gitDir h)
    (hfree : ∀ r ∈ InstallBackups env backupNames hm fs, r.hookName = h →
      ∀ p ∈ config.Hooks, p.2 ≠ [] → hookPath gitDir p.1 ≠ r.path) :
    fs'.dirs config.Settings.BackupDirectory = true ∧
    (∃ name ∈ backupNames h, ∃ b,
      (⟨h, joinPath config.Settings.BackupDirectory name, old.content⟩ : BackupRecord) ∈
        InstallBackups env backupNames hm fs ∧
      fs'.files (joinPath config.Settings.BackupDirectory name) = some b ∧
      b.content = old.content) ∧
    (∃ f, fs'.files (hookPath gitDir h) = some f ∧
      f.content = (generateHookScript h scripts).1) := by
  have hall := InstallHooks_ok env backupNames hm fs fs' config gitDir hinit hrun
  have hnotman : isManagedHook old.content = false := by
    simp [isManagedHook, signature, hforeign]
  obtain ⟨r, hr, hname, hcontent, name, hnamemem, hpath⟩ :=
    installAll_backup_made backupNames config.Settings gitDir h scripts hne hbe old hnotman
      config.Hooks fs fs' _ hall hmem hold hpaths
  obtain ⟨_, hdir, _, hkept⟩ := installAll_made backupNames config.Settings gitDir config.Hooks
    fs fs' _ hall r hr
  obtain ⟨b, hb, hbc⟩ := hkept (hfree r hr hname)
  obtain ⟨f, hf, hfc, _⟩ := installAll_target backupNames config.Settings gitDir h scripts hne
    config.Hooks fs fs' _ hall hpaths (Or.inl hmem)
  have hrec : r = ⟨h, joinPath config.Settings.BackupDirectory name, old.content⟩ := by
    cases r
    simp only [BackupRecord.mk.injEq]
    exact ⟨hname, hpath, hcontent⟩
  refine ⟨hdir, ⟨name, hnamemem, b, ?_, ?_, ?_⟩, f, hf, hfc⟩
  · rw [← hrec]; exact hr
  · rw [← hpath]; exact hb
  · rw [hbc, hcontent]

/-- C10, amended: a successful `InstallHooks` followed by a successful
`UninstallHooks` with the same configuration leaves no file at
`<gitDir>/hooks/<h>` for every hook `h` that was installed, while every
backup file created during the install, at a path that is not the hook file
of a configured hook with entries, still exists with its content
unchanged. -/
theorem install_then_uninstall (env : Env) (backupNames : String → List String)
    (hm : HookManager) (fs fs1 fs2 : FS) (config : Config) (gitDir : String)
    (hinit : hm.init env = .ok (config, gitDir))
    (hinst : InstallHooks env backupNames hm fs = .ok fs1)
    (hun : UninstallHooks env hm fs1 = .ok fs2) :
    (∀ h scripts, (h, scripts) ∈ config.Hooks → scripts ≠ [] →
      fs2.files (hookPath gitDir h) = none) ∧
    (∀ r ∈ InstallBackups env backupNames hm fs,
      (∀ p ∈ config.Hooks, p.2 ≠ [] → hookPath gitDir p.1 ≠ r.path) →
      ∃ b, fs1.files r.path = some b ∧ b.content = r.content ∧
        fs2.files r.path = some b) := by
  have hall := InstallHooks_ok env backupNames hm fs fs1 config gitDir hinit hinst
  unfold UninstallHooks at hun
  rw [hinit] at hun
  constructor
  · intro h scripts hmem hne
    have hman := installAll_managed backupNames config.Settings gitDir (hookPath gitDir h)
      config.Hooks fs fs1 _ hall (Or.inr ⟨(h, scripts), hmem, hne, rfl⟩)
    exact (uninstallAll_files gitDir (hookPath gitDir h) config.Hooks fs1 fs2 hun).1
      ⟨(h, scripts), hmem, rfl⟩ hman
  · intro r hr hpaths
    obtain ⟨hnotman, _, _, hkept⟩ := installAll_made backupNames config.Settings gitDir
      config.Hooks fs fs1 _ hall r hr
    obtain ⟨b, hb, hbc⟩ := hkept hpaths
    refine ⟨b, hb, hbc, ?_⟩
    rw [(uninstallAll_files gitDir r.path config.Hooks fs1 fs2 hun).2
      (Or.inl (by simp only [managedAt, hb, hbc]; exact hnotman))]
    exact hb

/-! ## The claims on concrete inputs -/

/-- Counterexample for C5 as stated: the configured hooks `pre-commit` and
`./pre-commit` both have entries and have the same hook file, and their
wrappers differ.  `InstallHooks` succeeds, and the file holds the wrapper of
the hook that is visited last: when `pre-commit` is visited first its hook
file holds the wrapper of `./pre-commit`, and when `./pre-commit` is visited
first its hook file holds the wrapper of `pre-commit`. -/
theorem InstallHooks_one_file_for_two_hooks :
    ("pre-commit", [⟨"lint", "lint.sh", "", "Lint"⟩]) ∈ aliasConfig.Hooks ∧
    ("./pre-commit", [⟨"test", "", "go test", "Test"⟩]) ∈ aliasConfig.Hooks ∧
    hookPath ".git" "./pre-commit" = hookPath ".git" "pre-commit" ∧
    (generateHookScript "pre-commit" [⟨"lint", "lint.sh", "", "Lint"⟩]).1 ≠
      (generateHookScript "./pre-commit" [⟨"test", "", "go test", "Test"⟩]).1 ∧
    InstallHooks sampleEnv sampleBackupNames aliasManager sampleFS = .ok aliasInstalled ∧
    (aliasInstalled.files (hookPath ".git" "pre-commit")).map File.content =
      some (generateHookScript "./pre-commit" [⟨"test", "", "go test", "Test"⟩]).1 ∧
    InstallHooks sampleEnv sampleBackupNames aliasManagerSwapped sampleFS =
      .ok aliasInstalledSwapped ∧
    (aliasInstalledSwapped.files (hookPath ".git" "./pre-commit")).map File.content =
      some (generateHookScript "pre-commit" [⟨"lint", "lint.sh", "", "Lint"⟩]).1 :=
  ⟨by decide, by decide, rfl, by decide, rfl, rfl, rfl, rfl⟩

/-- Witness for C5, amended: the install of the sample, with the hooks
`pre-commit` and `pre-push`, leaves the wrapper of `pre-commit`, executable,
at `.git/hooks/pre-commit`. -/
theorem InstallHooks_writes_wrapper_witness :
    ∃ f, sampleInstalled.files (hookPath ".git" "pre-commit") = some f ∧
      f.content = (generateHookScript "pre-commit"
        [⟨"test-script", "test.sh", "", "Test script"⟩,
         ⟨"test-command", "", "echo test", "Test command"⟩]).1 ∧
      strContains f.content "Generated by hooky" ∧
      (∀ e ∈ [(⟨"test-script", "test.sh", "", "Test script"⟩ : HookScript),
          ⟨"test-command", "", "echo test", "Test command"⟩],
        (e.Script ≠ "" → strContains f.content e.Script) ∧
        (e.Script = "" → strContains f.content e.Command)) ∧
      (installConfig.Settings.AutoExecutable = true → f.executable = true) :=
  InstallHooks_writes_wrapper sampleEnv sampleBackupNames installManager sampleFS
    sampleInstalled installConfig ".git" "pre-commit"
    [⟨"test-script", "test.sh", "", "Test script"⟩,
     ⟨"test-command", "", "echo test", "Test command"⟩]
    rfl rfl (by decide) (by decide) (by decide)

/-- Counterexample for C9 as stated, with backups enabled throughout.
First, the hook file of `pre-commit` holds a generated wrapper: the install
succeeds and makes no backup, and no backup file holds the content.  Second,
the hooks `pre-commit` and `./pre-commit` have one hook file, which holds a
hand-written hook: after the install it holds the wrapper of `./pre-commit`,
not the wrapper of `pre-commit`.  Third, the backup directory is the hooks
directory and the hook `pre-commit.backup` is configured: the backup of the
hand-written `pre-commit` hook is made and then overwritten by the wrapper of
`pre-commit.backup`, and no backup path of `pre-commit` holds the
hand-written hook. -/
theorem InstallHooks_backup_missing :
    (installConfig.Settings.BackupExisting = true ∧
      (sampleInstalled.files (hookPath ".git" "pre-commit")).map File.content =
        some (generateHookScript "pre-commit"
          [⟨"test-script", "test.sh", "", "Test script"⟩,
           ⟨"test-command", "", "echo test", "Test command"⟩]).1 ∧
      InstallHooks sampleEnv sampleBackupNames installManager sampleInstalled =
        .ok sampleReinstalled ∧
      InstallBackups sampleEnv sampleBackupNames installManager sampleInstalled = [] ∧
      ∀ name ∈ sampleBackupNames "pre-commit",
        (sampleReinstalled.files (joinPath ".hooky-backup" name)).map File.content ≠
          some (generateHookScript "pre-commit"
            [⟨"test-script", "test.sh", "", "Test script"⟩,
             ⟨"test-command", "", "echo test", "Test command"⟩]).1) ∧
    (aliasConfig.Settings.BackupExisting = true ∧
      sampleFS.files (hookPath ".git" "pre-commit") = some ⟨"#!/bin/sh\necho mine\n", true⟩ ∧
      InstallHooks sampleEnv sampleBackupNames aliasManager sampleFS = .ok aliasInstalled ∧
      (aliasInstalled.files (hookPath ".git" "pre-commit")).map File.content ≠
        some (generateHookScript "pre-commit" [⟨"lint", "lint.sh", "", "Lint"⟩]).1) ∧
    (clashConfig.Settings.BackupExisting = true ∧
      sampleFS.files (hookPath ".git" "pre-commit") = some ⟨"#!/bin/sh\necho mine\n", true⟩ ∧
      InstallHooks sampleEnv sampleBackupNames clashManager sampleFS = .ok clashInstalled ∧
      InstallBackups sampleEnv sampleBackupNames clashManager sampleFS =
        [⟨"pre-commit", ".git/hooks/pre-commit.backup", "#!/bin/sh\necho mine\n"⟩,
         ⟨"pre-commit.backup", ".git/hooks/pre-commit.backup.backup",
           "#!/bin/sh\necho mine\n"⟩] ∧
      (clashInstalled.files ".git/hooks/pre-commit.backup").map File.content =
        some (generateHookScript "pre-commit.backup" [⟨"test", "", "go test", "Test"⟩]).1 ∧
      ∀ name ∈ sampleBackupNames "pre-commit",
        (clashInstalled.files (joinPath ".git/hooks" name)).map File.content ≠
          some "#!/bin/sh\necho mine\n") :=
  ⟨⟨rfl, rfl, rfl, rfl, by decide⟩,
    ⟨rfl, rfl, rfl, by decide⟩,
    ⟨rfl, rfl, rfl, rfl, rfl, by decide⟩⟩

/-- Witness for C9, amended: the install of the sample copies the hand-written
`pre-commit` hook to `.hooky-backup/pre-commit.backup` and writes the
wrapper. -/
theorem InstallHooks_backs_up_existing_witness :
    sampleInstalled.dirs installConfig.Settings.BackupDirectory = true ∧
    (∃ name ∈ sampleBackupNames "pre-commit", ∃ b,
      (⟨"pre-commit", joinPath installConfig.Settings.BackupDirectory name,
          "#!/bin/sh\necho mine\n"⟩ : BackupRecord) ∈
        InstallBackups sampleEnv sampleBackupNames installManager sampleFS ∧
      sampleInstalled.files (joinPath installConfig.Settings.BackupDirectory name) = some b ∧
      b.content = "#!/bin/sh\necho mine\n") ∧
    (∃ f, sampleInstalled.files (hookPath ".git" "pre-commit") = some f ∧
      f.content = (generateHookScript "pre-commit"
        [⟨"test-script", "test.sh", "", "Test script"⟩,
         ⟨"test-command", "", "echo test", "Test command"⟩]).1) :=
  InstallHooks_backs_up_existing sampleEnv sampleBackupNames installManager sampleFS
    sampleInstalled installConfig ".git" "pre-commit"
    [⟨"test-script", "test.sh", "", "Test script"⟩,
     ⟨"test-command", "", "echo test", "Test command"⟩]
    ⟨"#!/bin/sh\necho mine\n", true⟩
    rfl rfl (by decide) (by decide) rfl (by decide) (by decide) (by decide) (by decide)

/-- Counterexample for C10 as stated: the backup directory is the hooks
directory and the hooks `pre-commit` and `pre-commit.backup` are configured.
The install makes a backup of the hand-written `pre-commit` hook at
`.git/hooks/pre-commit.backup`; after the install and the uninstall, which
both succeed, no file exists at that path. -/
theorem install_then_uninstall_backup_gone :
    InstallHooks sampleEnv sampleBackupNames clashManager sampleFS = .ok clashInstalled ∧
    UninstallHooks sampleEnv clashManager clashInstalled = .ok clashUninstalled ∧
    (⟨"pre-commit", ".git/hooks/pre-commit.backup", "#!/bin/sh\necho mine\n"⟩ :
      BackupRecord) ∈ InstallBackups sampleEnv sampleBackupNames clashManager sampleFS ∧
    clashUninstalled.files ".git/hooks/pre-commit.backup" = none :=
  ⟨rfl, rfl, by decide, by decide⟩

/-- Witness for C10, amended: after the install and the uninstall of the
sample no file is left at `.git/hooks/pre-commit` and at `.git/hooks/pre-push`,
and the backup copy of the hand-written hook is still there. -/
theorem install_then_uninstall_witness :
    (sampleUninstalled.files (hookPath ".git" "pre-commit") = none ∧
      sampleUninstalled.files (hookPath ".git" "pre-push") = none) ∧
    (∃ b, sampleInstalled.files ".hooky-backup/pre-commit.backup" = some b ∧
      b.content = "#!/bin/sh\necho mine\n" ∧
      sampleUninstalled.files ".hooky-backup/pre-commit.backup" = some b) :=
  ⟨⟨(install_then_uninstall sampleEnv sampleBackupNames installManager sampleFS
        sampleInstalled sampleUninstalled installConfig ".git" rfl rfl rfl).1
        "pre-commit"
        [⟨"test-script", "test.sh", "", "Test script"⟩,
         ⟨"test-command", "", "echo test", "Test command"⟩] (by decide) (by decide),
      (install_then_uninstall sampleEnv sampleBackupNames installManager sampleFS
        sampleInstalled sampleUninstalled installConfig ".git" rfl rfl rfl).1
        "pre-push" [⟨"build", "build.sh", "", "Build"⟩] (by decide) (by decide)⟩,
    (install_then_uninstall sampleEnv sampleBackupNames installManager sampleFS
      sampleInstalled sampleUninstalled installConfig ".git" rfl rfl rfl).2
      ⟨"pre-commit", ".hooky-backup/pre-commit.backup", "#!/bin/sh\necho mine\n"⟩
      (by decide) (by decide)⟩

/-- Witness for C6: the uninstall of the sample of `TestUninstallHooks`
removes the generated `pre-commit` hook and keeps the foreign `pre-push`
hook. -/
theorem UninstallHooks_removes_iff_signature_witness :
    uninstallResult.files (hookPath ".git" "pre-commit") = none ∧
    uninstallResult.files (hookPath ".git" "pre-push") =
      some ⟨"#!/bin/sh\necho \"other hook\"\n", true⟩ :=
  ⟨(UninstallHooks_removes_iff_signature sampleEnv uninstallManager uninstallFS
      uninstallResult uninstallConfig ".git" "pre-commit" [⟨"test", "", "echo test", "Test"⟩]
      rfl rfl (by decide)).1
      ⟨"#!/bin/sh\n# Generated by hooky - Do not edit manually\necho \"hooky generated hook\"\n", true⟩
      (by decide) (by decide),
    (UninstallHooks_removes_iff_signature sampleEnv uninstallManager uninstallFS
      uninstallResult uninstallConfig ".git" "pre-push" [⟨"test", "", "echo test", "Test"⟩]
      rfl rfl (by decide)).2.1
      ⟨"#!/bin/sh\necho \"other hook\"\n", true⟩ (by decide) (by decide)⟩

/-- Witness for C8: the script entry `missing.sh --arg` is reported by the
path `missing.sh` alone. -/
theorem validateScripts_first_token_witness :
    ∃ msg, validateScripts sampleEnv sampleFS
        ⟨[("pre-commit", [⟨"test", "missing.sh --arg", "", "Missing with args"⟩])],
          sampleConfig.Settings⟩ = some msg ∧
      strContains msg ("script file '" ++ "missing.sh" ++ "' not found") :=
  ((validateScripts_first_token sampleEnv sampleFS
    [("pre-commit", [⟨"test", "missing.sh --arg", "", "Missing with args"⟩])]
    sampleConfig.Settings "pre-commit" [⟨"test", "missing.sh --arg", "", "Missing with args"⟩]
    0 ⟨"test", "missing.sh --arg", "", "Missing with args"⟩ "missing.sh"
    (by decide) (by decide) (by decide) (by decide)).1
    (Or.inr ⟨"--arg", by decide⟩) rfl).2 (by decide)

/-! ## Claims on `validateHookScripts` -/

/-- C1: `validateHookScripts` returns no error if and only if every entry of
every hook has exactly one of `Script` and `Command` non-empty; a mapping that
contains an entry with both fields non-empty, or with both fields empty, is
rejected with an error. -/
theorem validateHookScripts_nil_iff_exactly_one (hooks : Hooks) :
    (validateHookScripts hooks = none ↔
      ∀ p ∈ hooks, ∀ e ∈ p.2,
        (e.Script ≠ "" ∧ e.Command = "") ∨ (e.Script = "" ∧ e.Command ≠ "")) ∧
    ((∃ p ∈ hooks, ∃ e ∈ p.2,
        (e.Script ≠ "" ∧ e.Command ≠ "") ∨ (e.Script = "" ∧ e.Command = "")) ↔
      ∃ msg, validateHookScripts hooks = some msg) := by
  have key := validateHookScripts_eq_none_iff hooks
  refine ⟨key, ?_⟩
  constructor
  · rintro ⟨p, hp, e, he, hbad⟩
    cases hv : validateHookScripts hooks with
    | some msg => exact ⟨msg, rfl⟩
    | none =>
      have hone := (key.mp hv) p hp e he
      unfold exactlyOne at hone
      rcases hbad with ⟨h1, h2⟩ | ⟨h1, h2⟩ <;> rcases hone with ⟨h3, h4⟩ | ⟨h3, h4⟩ <;>
        contradiction
  · rintro ⟨msg, hmsg⟩
    by_contra hno
    have hall : allExactlyOne hooks := by
      intro p hp e he
      unfold exactlyOne
      by_cases hs : e.Script = "" <;> by_cases hc : e.Command = ""
      · exact absurd ⟨p, hp, e, he, Or.inr ⟨hs, hc⟩⟩ hno
      · exact Or.inr ⟨hs, hc⟩
      · exact Or.inl ⟨hs, hc⟩
      · exact absurd ⟨p, hp, e, he, Or.inl ⟨hs, hc⟩⟩ hno
    rw [key.mpr hall] at hmsg
    cases hmsg

/-- C2: for a mapping whose only invalid entry is the entry `e` at index `i`
of hook `h`, the message returned by `validateHookScripts` is exactly
"hook h[i] (n): must specify either 'script' or 'command'" when both fields
of `e` are empty and exactly
"hook h[i] (n): cannot specify both 'script' and 'command', use only one"
when both are non-empty, where `n` is the entry's `Name` and `i` is printed in
decimal. -/
theorem validateHookScripts_message (hooks : Hooks) (h : String) (es : List HookScript)
    (i : Nat) (e : HookScript)
    (hmem : (h, es) ∈ hooks)
    (hi : es[i]? = some e)
    (hhooks : ∀ p ∈ hooks, p ≠ (h, es) → ∀ x ∈ p.2, exactlyOne x)
    (hentries : ∀ j x, es[j]? = some x → j ≠ i → exactlyOne x) :
    (e.Script = "" ∧ e.Command = "" →
      validateHookScripts hooks =
        some ("hook " ++ h ++ "[" ++ toString i ++ "] (" ++ e.Name ++
          "): must specify either 'script' or 'command'")) ∧
    (e.Script ≠ "" ∧ e.Command ≠ "" →
      validateHookScripts hooks =
        some ("hook " ++ h ++ "[" ++ toString i ++ "] (" ++ e.Name ++
          "): cannot specify both 'script' and 'command', use only one")) := by
  have step : ¬ exactlyOne e →
      validateHookScripts hooks = checkHookScript h i e := by
    intro he
    have hes : ¬ ∀ x ∈ es, exactlyOne x := fun hall =>
      he (hall e (List.getElem?_mem hi))
    rw [validateHookScripts_only h es hes hooks hmem hhooks,
      validateScriptsFrom_only h es i e hi he
        (fun j x hx hj => hentries j x hx (Nat.ne_of_lt hj)) 0, Nat.zero_add]
  constructor
  · rintro ⟨hs, hc⟩
    rw [step (by unfold exactlyOne; simp [hs, hc])]
    simp [checkHookScript, hs, hc]
  · rintro ⟨hs, hc⟩
    rw [step (by unfold exactlyOne; simp [hs, hc])]
    simp [checkHookScript, hs, hc]

/-- Witness for C2: a valid entry followed by an entry with neither field, in
the hook `pre-commit`, beside a second hook with one valid entry. -/
theorem validateHookScripts_message_witness :
    validateHookScripts
        [("pre-push", [⟨"lint", "", "go vet", "Lint"⟩]),
         ("pre-commit", [⟨"valid", "test.sh", "", "Valid"⟩, ⟨"invalid", "", "", "Invalid"⟩])] =
      some "hook pre-commit[1] (invalid): must specify either 'script' or 'command'" :=
  (validateHookScripts_message
    [("pre-push", [⟨"lint", "", "go vet", "Lint"⟩]),
     ("pre-commit", [⟨"valid", "test.sh", "", "Valid"⟩, ⟨"invalid", "", "", "Invalid"⟩])]
    "pre-commit" [⟨"valid", "test.sh", "", "Valid"⟩, ⟨"invalid", "", "", "Invalid"⟩]
    1 ⟨"invalid", "", "", "Invalid"⟩
    (by decide) (by decide) (by decide)
    (by
      intro j x hx hj
      match j, hx, hj with
      | 0, hx, _ =>
        simp only [List.getElem?_cons_zero, Option.some.injEq] at hx
        subst hx; decide
      | 1, _, hj => exact absurd rfl hj
      | (n + 2), hx, _ => simp at hx)).1 ⟨rfl, rfl⟩

/-! ## Claims on `LoadConfig` -/

/-- The configuration that `LoadConfig` builds from a document: the defaults,
overridden by what the document mentions. -/
theorem yamlUnmarshal_ok (parseYAML : String → Except String ConfigDoc) (data : String)
    (config config' : Config) (h : yamlUnmarshal parseYAML data config = .ok config') :
    ∃ doc, parseYAML data = .ok doc ∧
      config'.Hooks = (match doc.hooks with
        | some hooks => hooks
        | none => config.Hooks) ∧
      config'.Settings.AutoExecutable =
        (doc.setting SettingsDoc.auto_executable).getD config.Settings.AutoExecutable ∧
      config'.Settings.BackupExisting =
        (doc.setting SettingsDoc.backup_existing).getD config.Settings.BackupExisting ∧
      config'.Settings.BackupDirectory =
        (doc.setting SettingsDoc.backup_directory).getD config.Settings.BackupDirectory ∧
      config'.Settings.Verbose =
        (doc.setting SettingsDoc.verbose).getD config.Settings.Verbose := by
  unfold yamlUnmarshal at h
  split at h
  · cases h
  · rename_i doc hdoc
    cases h
    refine ⟨doc, hdoc, rfl, ?_, ?_, ?_, ?_⟩ <;>
      · unfold ConfigDoc.setting
        cases hs : doc.settings with
        | none => rfl
        | some block =>
          simp only [unmarshalSettings]
          split <;> simp_all

/-- C11: for every config file that loads successfully, `LoadConfig` returns a
non-nil `Config` in which each setting that the file does not mention has its
default value (`auto_executable` true, `backup_existing` true,
`backup_directory` ".hooky-backup", `verbose` false) and each setting that the
file mentions has the value of the file; a field depends on its own key
only. -/
theorem LoadConfig_applies_defaults (fs : FS) (parseYAML : String → Except String ConfigDoc)
    (configPath : String) (hload : (LoadConfig fs parseYAML configPath).2 = none) :
    ∃ data doc config, fs.readFile configPath = .ok data ∧ parseYAML data = .ok doc ∧
      (LoadConfig fs parseYAML configPath).1 = some config ∧
      config.Settings.AutoExecutable = (doc.setting SettingsDoc.auto_executable).getD true ∧
      config.Settings.BackupExisting = (doc.setting SettingsDoc.backup_existing).getD true ∧
      config.Settings.BackupDirectory =
        (doc.setting SettingsDoc.backup_directory).getD ".hooky-backup" ∧
      config.Settings.Verbose = (doc.setting SettingsDoc.verbose).getD false := by
  unfold LoadConfig at hload ⊢
  cases hread : fs.readFile configPath with
  | error err => rw [hread] at hload; simp at hload
  | ok data =>
    rw [hread] at hload
    simp only at hload ⊢
    cases hyaml : yamlUnmarshal parseYAML data ⟨[], ⟨true, true, ".hooky-backup", false⟩⟩ with
    | error err => rw [hyaml] at hload; simp at hload
    | ok config =>
      rw [hyaml] at hload
      simp only at hload ⊢
      obtain ⟨doc, hdoc, _, h1, h2, h3, h4⟩ := yamlUnmarshal_ok parseYAML data _ config hyaml
      cases hval : validateHookScripts config.Hooks with
      | some err => rw [hval] at hload; simp at hload
      | none => exact ⟨data, doc, config, rfl, hdoc, rfl, h1, h2, h3, h4⟩

/-- Witness for C11: the file `hooky.yaml` of the sample mentions `verbose`
only; it loads, with `verbose` from the file and the other settings at their
defaults. -/
theorem LoadConfig_applies_defaults_witness :
    ∃ data doc config, configFS.readFile "hooky.yaml" = .ok data ∧
      sampleParseYAML data = .ok doc ∧
      (LoadConfig configFS sampleParseYAML "hooky.yaml").1 = some config ∧
      config.Settings.AutoExecutable = (doc.setting SettingsDoc.auto_executable).getD true ∧
      config.Settings.BackupExisting = (doc.setting SettingsDoc.backup_existing).getD true ∧
      config.Settings.BackupDirectory =
        (doc.setting SettingsDoc.backup_directory).getD ".hooky-backup" ∧
      config.Settings.Verbose = (doc.setting SettingsDoc.verbose).getD false :=
  LoadConfig_applies_defaults configFS sampleParseYAML "hooky.yaml" (by decide)

/-- The configuration loaded from the sample file. -/
theorem LoadConfig_sample :
    LoadConfig configFS sampleParseYAML "hooky.yaml" =
      (some ⟨[("pre-commit", [⟨"test", "test.sh", "", "Test script"⟩])],
        ⟨true, true, ".hooky-backup", true⟩⟩, none) := by
  decide

/-- The configuration that `LoadConfig` hands to the decoder: no hooks and the
default settings. -/
theorem LoadConfig_eq (fs : FS) (parseYAML : String → Except String ConfigDoc)
    (configPath : String) :
    LoadConfig fs parseYAML configPath =
      match fs.readFile configPath with
      | .error err => (none, some ("failed to read config file: " ++ err))
      | .ok data =>
        match yamlUnmarshal parseYAML data ⟨[], ⟨true, true, ".hooky-backup", false⟩⟩ with
        | .error err => (none, some ("failed to parse config file: " ++ err))
        | .ok config =>
          match validateHookScripts config.Hooks with
          | some err => (none, some err)
          | none => (some config, none) := rfl

/-- C12: `LoadConfig` fails in exactly three cases, checked in this order, with
a nil `Config` in each: the file cannot be read (the message begins with
"failed to read config file"), the content cannot be parsed (the message
begins with "failed to parse config file"), or `validateHookScripts` rejects
the parsed hooks (its error is returned unchanged).  In every other case it
returns the decoded `Config` and no error; the `Config` is nil exactly when
there is an error. -/
theorem LoadConfig_failure_cases (fs : FS) (parseYAML : String → Except String ConfigDoc)
    (configPath : String) :
    (∀ err, fs.readFile configPath = .error err →
      LoadConfig fs parseYAML configPath =
        (none, some ("failed to read config file: " ++ err)) ∧
      startsWith ("failed to read config file: " ++ err) "failed to read config file") ∧
    (∀ data err, fs.readFile configPath = .ok data → parseYAML data = .error err →
      LoadConfig fs parseYAML configPath =
        (none, some ("failed to parse config file: " ++ err)) ∧
      startsWith ("failed to parse config file: " ++ err) "failed to parse config file") ∧
    (∀ data config err, fs.readFile configPath = .ok data →
      yamlUnmarshal parseYAML data ⟨[], ⟨true, true, ".hooky-backup", false⟩⟩ = .ok config →
      validateHookScripts config.Hooks = some err →
      LoadConfig fs parseYAML configPath = (none, some err)) ∧
    (∀ data config, fs.readFile configPath = .ok data →
      yamlUnmarshal parseYAML data ⟨[], ⟨true, true, ".hooky-backup", false⟩⟩ = .ok config →
      validateHookScripts config.Hooks = none →
      LoadConfig fs parseYAML configPath = (some config, none)) ∧
    ((LoadConfig fs parseYAML configPath).2 = none ↔
      ∃ data config, fs.readFile configPath = .ok data ∧
        yamlUnmarshal parseYAML data ⟨[], ⟨true, true, ".hooky-backup", false⟩⟩ = .ok config ∧
        validateHookScripts config.Hooks = none) ∧
    ((LoadConfig fs parseYAML configPath).1 = none ↔
      (LoadConfig fs parseYAML configPath).2 ≠ none) := by
  have hpre1 : ∀ err : String,
      startsWith ("failed to read config file: " ++ err) "failed to read config file" := by
    intro err
    have hsplit : "failed to read config file: " = "failed to read config file" ++ ": " := by
      decide
    rw [hsplit]
    exact startsWith_append_right _ _ _ (startsWith_append_right _ _ _ ⟨[], by simp⟩)
  have hpre2 : ∀ err : String,
      startsWith ("failed to parse config file: " ++ err) "failed to parse config file" := by
    intro err
    have hsplit : "failed to parse config file: " = "failed to parse config file" ++ ": " := by
      decide
    rw [hsplit]
    exact startsWith_append_right _ _ _ (startsWith_append_right _ _ _ ⟨[], by simp⟩)
  rw [LoadConfig_eq]
  refine ⟨?_, ?_, ?_, ?_, ?_, ?_⟩
  · intro err hread
    rw [hread]
    exact ⟨rfl, hpre1 err⟩
  · intro data err hread hparse
    rw [hread]
    have hy : yamlUnmarshal parseYAML data ⟨[], ⟨true, true, ".hooky-backup", false⟩⟩ =
        .error err := by
      unfold yamlUnmarshal
      rw [hparse]
    simp only
    rw [hy]
    exact ⟨rfl, hpre2 err⟩
  · intro data config err hread hy hval
    rw [hread]
    simp only
    rw [hy]
    simp only
    rw [hval]
  · intro data config hread hy hval
    rw [hread]
    simp only
    rw [hy]
    simp only
    rw [hval]
  · cases hread : fs.readFile configPath with
    | error err => simp
    | ok data =>
      simp only
      cases hy : yamlUnmarshal parseYAML data ⟨[], ⟨true, true, ".hooky-backup", false⟩⟩ with
      | error err =>
        simp only
        constructor
        · intro h; cases h
        · rintro ⟨data', config', hd, hc, _⟩
          cases hd
          rw [hy] at hc
          cases hc
      | ok config =>
        simp only
        cases hval : validateHookScripts config.Hooks with
        | some err =>
          simp only
          constructor
          · intro h; cases h
          · rintro ⟨data', config', hd, hc, hv⟩
            cases hd
            rw [hy] at hc
            cases hc
            rw [hval] at hv
            cases hv
        | none =>
          simp only
          exact ⟨fun _ => ⟨data, config, rfl, hy, hval⟩, fun _ => trivial⟩
  · cases hread : fs.readFile configPath with
    | error err => simp
    | ok data =>
      simp only
      cases hy : yamlUnmarshal parseYAML data ⟨[], ⟨true, true, ".hooky-backup", false⟩⟩ with
      | error err => simp
      | ok config =>
        simp only
        cases hval : validateHookScripts config.Hooks <;> simp

/-! ## Claims on `main` -/

/-- C13: the operations are mutually exclusive.  For every combination of
flags, the state of the world after `main` is the state left by the one
selected operation, run once from the initial state (with `-version` no
manager operation runs and the version is printed; otherwise only the first
set flag among `-install`, `-uninstall`, `-list` is dispatched; with none set
only the usage is shown), and the exit status is non-zero if and only if that
operation returned an error. -/
theorem main_runs_selected_operation {σ : Type} (ops : ManagerOps σ) (flags : Flags)
    (world : σ) :
    (main ops flags world).world =
      (runOperation ops (NewHookManager flags.configFile flags.verbose) world
        (selectedOperation flags)).2 ∧
    ((main ops flags world).status ≠ 0 ↔
      (runOperation ops (NewHookManager flags.configFile flags.verbose) world
        (selectedOperation flags)).1 ≠ none) ∧
    (flags.showVersion = true →
      main ops flags world = ⟨world, "hooky version 1.3.0\n", "", 0⟩) ∧
    (flags.showVersion = false → flags.install = true →
      (main ops flags world).world =
        (ops.InstallHooks (NewHookManager flags.configFile flags.verbose) world).2 ∧
      ((main ops flags world).status ≠ 0 ↔
        (ops.InstallHooks (NewHookManager flags.configFile flags.verbose) world).1 ≠ none)) ∧
    (flags.showVersion = false → flags.install = false → flags.uninstall = true →
      (main ops flags world).world =
        (ops.UninstallHooks (NewHookManager flags.configFile flags.verbose) world).2 ∧
      ((main ops flags world).status ≠ 0 ↔
        (ops.UninstallHooks (NewHookManager flags.configFile flags.verbose) world).1 ≠ none)) ∧
    (flags.showVersion = false → flags.install = false → flags.uninstall = false →
      flags.list = true →
      (main ops flags world).world =
        (ops.ListHooks (NewHookManager flags.configFile flags.verbose) world).2 ∧
      ((main ops flags world).status ≠ 0 ↔
        (ops.ListHooks (NewHookManager flags.configFile flags.verbose) world).1 ≠ none)) ∧
    (flags.showVersion = false → flags.install = false → flags.uninstall = false →
      flags.list = false →
      main ops flags world = ⟨world, "", ops.usage, 0⟩) := by
  have hinstall : flags.showVersion = false → flags.install = true →
      (main ops flags world).world =
        (ops.InstallHooks (NewHookManager flags.configFile flags.verbose) world).2 ∧
      ((main ops flags world).status ≠ 0 ↔
        (ops.InstallHooks (NewHookManager flags.configFile flags.verbose) world).1 ≠ none) := by
    intro hv hi
    unfold main
    simp only [hv, hi, Bool.false_eq_true, if_false, if_true]
    rcases hop : ops.InstallHooks (NewHookManager flags.configFile flags.verbose) world with
      ⟨_ | err, w⟩ <;> simp
  have huninstall : flags.showVersion = false → flags.install = false →
      flags.uninstall = true →
      (main ops flags world).world =
        (ops.UninstallHooks (NewHookManager flags.configFile flags.verbose) world).2 ∧
      ((main ops flags world).status ≠ 0 ↔
        (ops.UninstallHooks (NewHookManager flags.configFile flags.verbose) world).1 ≠
          none) := by
    intro hv hi hu
    unfold main
    simp only [hv, hi, hu, Bool.false_eq_true, if_false, if_true]
    rcases hop : ops.UninstallHooks (NewHookManager flags.configFile flags.verbose) world with
      ⟨_ | err, w⟩ <;> simp
  have hlist : flags.showVersion = false → flags.install = false → flags.uninstall = false →
      flags.list = true →
      (main ops flags world).world =
        (ops.ListHooks (NewHookManager flags.configFile flags.verbose) world).2 ∧
      ((main ops flags world).status ≠ 0 ↔
        (ops.ListHooks (NewHookManager flags.configFile flags.verbose) world).1 ≠ none) := by
    intro hv hi hu hl
    unfold main
    simp only [hv, hi, hu, hl, Bool.false_eq_true, if_false, if_true]
    rcases hop : ops.ListHooks (NewHookManager flags.configFile flags.verbose) world with
      ⟨_ | err, w⟩ <;> simp
  have hversion : flags.showVersion = true →
      main ops flags world = ⟨world, "hooky version 1.3.0\n", "", 0⟩ := by
    intro hv
    unfold main
    simp only [hv, if_true]
    have htext : "hooky version " ++ version ++ "\n" = "hooky version 1.3.0\n" := by decide
    rw [htext]
  have husage : flags.showVersion = false → flags.install = false → flags.uninstall = false →
      flags.list = false → main ops flags world = ⟨world, "", ops.usage, 0⟩ := by
    intro hv hi hu hl
    unfold main
    simp only [hv, hi, hu, hl, Bool.false_eq_true, if_false]
  refine ⟨?_, ?_, hversion, hinstall, huninstall, hlist, husage⟩
  · cases hv : flags.showVersion
    · cases hi : flags.install
      · cases hu : flags.uninstall
        · cases hl : flags.list
          · rw [husage hv hi hu hl]
            simp [selectedOperation, runOperation, hv, hi, hu, hl]
          · rw [(hlist hv hi hu hl).1]
            simp [selectedOperation, runOperation, hv, hi, hu, hl]
        · rw [(huninstall hv hi hu).1]
          simp [selectedOperation, runOperation, hv, hi, hu]
      · rw [(hinstall hv hi).1]
        simp [selectedOperation, runOperation, hv, hi]
    · rw [hversion hv]
      simp [selectedOperation, runOperation, hv]
  · cases hv : flags.showVersion
    · cases hi : flags.install
      · cases hu : flags.uninstall
        · cases hl : flags.list
          · rw [husage hv hi hu hl]
            simp [selectedOperation, runOperation, hv, hi, hu, hl]
          · rw [(hlist hv hi hu hl).2]
            simp [selectedOperation, runOperation, hv, hi, hu, hl]
        · rw [(huninstall hv hi hu).2]
          simp [selectedOperation, runOperation, hv, hi, hu]
      · rw [(hinstall hv hi).2]
        simp [selectedOperation, runOperation, hv, hi]
    · rw [hversion hv]
      simp [selectedOperation, runOperation, hv]

/-! ## Further claims on `validateHookScripts` -/

/-- Whether the mapping is accepted does not change when the hook names are
renamed. -/
theorem validateHookScripts_rename (rename : String → String) (hooks : Hooks) :
    validateHookScripts (hooks.map (fun p => (rename p.1, p.2))) = none ↔
      validateHookScripts hooks = none := by
  rw [validateHookScripts_eq_none_iff, validateHookScripts_eq_none_iff]
  unfold allExactlyOne
  constructor
  · intro h p hp e he
    exact h (rename p.1, p.2) (List.mem_map.mpr ⟨p, hp, rfl⟩) e he
  · intro h q hq e he
    obtain ⟨p, hp, rfl⟩ := List.mem_map.mp hq
    exact h p hp e he

/-- A hook name outside `GetSupportedHooks`, with a well-formed entry, is
accepted. -/
theorem unsupported_hook_name_example :
    "my-team-hook" ∉ GetSupportedHooks ∧
    validateHookScripts [("my-team-hook", [⟨"lint", "lint.sh", "", "Lint"⟩])] = none :=
  ⟨by decide, by decide⟩

/-- C14: unknown hook names are tolerated.  Whether `validateHookScripts`
accepts a mapping is unchanged when the name of one hook is replaced by any
other string, and when all names are replaced; so a hook whose name is not an
element of `GetSupportedHooks()` and whose entries are well formed is
accepted, alone and beside other hooks with well-formed entries. -/
theorem validateHookScripts_tolerates_unknown_names (pre post : Hooks) (h h' : String)
    (es : List HookScript) (rename : String → String) :
    (validateHookScripts (pre ++ (h, es) :: post) = none ↔
      validateHookScripts (pre ++ (h', es) :: post) = none) ∧
    (validateHookScripts ((pre ++ (h, es) :: post).map (fun p => (rename p.1, p.2))) = none ↔
      validateHookScripts (pre ++ (h, es) :: post) = none) ∧
    (h ∉ GetSupportedHooks → (∀ e ∈ es, exactlyOne e) →
      validateHookScripts [(h, es)] = none ∧
      (validateHookScripts pre = none → validateHookScripts post = none →
        validateHookScripts (pre ++ (h, es) :: post) = none)) := by
  refine ⟨?_, validateHookScripts_rename rename _, ?_⟩
  · rw [validateHookScripts_eq_none_iff, validateHookScripts_eq_none_iff]
    unfold allExactlyOne
    simp only [List.mem_append, List.mem_cons]
    constructor
    · intro hall p hp e he
      rcases hp with hp | rfl | hp
      · exact hall p (Or.inl hp) e he
      · exact hall (h, es) (Or.inr (Or.inl rfl)) e he
      · exact hall p (Or.inr (Or.inr hp)) e he
    · intro hall p hp e he
      rcases hp with hp | rfl | hp
      · exact hall p (Or.inl hp) e he
      · exact hall (h', es) (Or.inr (Or.inl rfl)) e he
      · exact hall p (Or.inr (Or.inr hp)) e he
  · intro _ hes
    constructor
    · rw [validateHookScripts_eq_none_iff]
      intro p hp e he
      simp only [List.mem_singleton] at hp
      subst hp
      exact hes e he
    · intro hpre hpost
      rw [validateHookScripts_eq_none_iff] at hpre hpost ⊢
      intro p hp e he
      simp only [List.mem_append, List.mem_cons] at hp
      rcases hp with hp | rfl | hp
      · exact hpre p hp e he
      · exact hes e he
      · exact hpost p hp e he

/-- C15: within the entry list of one hook `validateHookScripts` is fail-fast.
For a mapping with the single hook `h`, when `e` is the entry with the
smallest index `i` that is invalid, whatever follows it, the error names `h`,
`i` and the name of `e`, with the reason for `e`. -/
theorem validateHookScripts_reports_first_invalid (h : String) (es : List HookScript)
    (i : Nat) (e : HookScript) (hi : es[i]? = some e) (hbad : ¬ exactlyOne e)
    (hfirst : ∀ j x, es[j]? = some x → j < i → exactlyOne x) :
    validateHookScripts [(h, es)] =
      some ("hook " ++ h ++ "[" ++ toString i ++ "] (" ++ e.Name ++ "): " ++
        (if e.Script = "" then "must specify either 'script' or 'command'"
         else "cannot specify both 'script' and 'command', use only one")) := by
  have hloop : validateHookScripts [(h, es)] = validateScriptsFrom h 0 es := by
    rw [validateHookScripts]
    cases validateScriptsFrom h 0 es <;> rfl
  rw [hloop, validateScriptsFrom_only h es i e hi hbad hfirst 0, Nat.zero_add]
  have h1 : "): must specify either 'script' or 'command'" =
      "): " ++ "must specify either 'script' or 'command'" := by decide
  have h2 : "): cannot specify both 'script' and 'command', use only one" =
      "): " ++ "cannot specify both 'script' and 'command', use only one" := by decide
  unfold exactlyOne at hbad
  unfold checkHookScript
  by_cases hs : e.Script = "" <;> by_cases hc : e.Command = ""
  · simp only [hs, hc, bne_self_eq_false, Bool.not_false, Bool.and_self, if_true, h1,
      String.append_assoc]
  · exact absurd (Or.inr ⟨hs, hc⟩) hbad
  · exact absurd (Or.inl ⟨hs, hc⟩) hbad
  · have hs' : (e.Script != "") = true := by simp [hs]
    have hc' : (e.Command != "") = true := by simp [hc]
    simp only [hs', hc', Bool.not_true, Bool.and_self, Bool.false_eq_true, if_false, if_true,
      hs, h2, String.append_assoc]

/-- Witness for C15: a valid entry followed by two invalid ones is reported at
index 1. -/
theorem validateHookScripts_reports_first_invalid_witness :
    validateHookScripts
        [("pre-commit",
          [⟨"valid", "test.sh", "", "Valid"⟩, ⟨"both", "a.sh", "go vet", "Both"⟩,
           ⟨"neither", "", "", "Neither"⟩])] =
      some ("hook " ++ "pre-commit" ++ "[" ++ toString 1 ++ "] (" ++ "both" ++ "): " ++
        (if ("a.sh" : String) = "" then "must specify either 'script' or 'command'"
         else "cannot specify both 'script' and 'command', use only one")) :=
  validateHookScripts_reports_first_invalid "pre-commit"
    [⟨"valid", "test.sh", "", "Valid"⟩, ⟨"both", "a.sh", "go vet", "Both"⟩,
     ⟨"neither", "", "", "Neither"⟩]
    1 ⟨"both", "a.sh", "go vet", "Both"⟩ (by decide) (by decide)
    (by
      intro j x hx hj
      match j, hx, hj with
      | 0, hx, _ =>
        simp only [List.getElem?_cons_zero, Option.some.injEq] at hx
        subst hx; decide
      | (n + 1), _, hj => omega)

/-- C16: whether `validateHookScripts` returns an error does not depend on the
order in which the hooks of the mapping are visited.  For two visiting orders
of the same mapping the result is nil in both or non-nil in both, and when at
most one hook has an invalid entry the returned message is the same in
both. -/
theorem validateHookScripts_order_independent (hooks₁ hooks₂ : Hooks)
    (hperm : hooks₁.Perm hooks₂) :
    (validateHookScripts hooks₁ = none ↔ validateHookScripts hooks₂ = none) ∧
    ((∀ p ∈ hooks₁, ∀ q ∈ hooks₁, hasInvalidEntry p.2 → hasInvalidEntry q.2 → p = q) →
      validateHookScripts hooks₁ = validateHookScripts hooks₂) := by
  have hnone : validateHookScripts hooks₁ = none ↔ validateHookScripts hooks₂ = none := by
    rw [validateHookScripts_eq_none_iff, validateHookScripts_eq_none_iff]
    unfold allExactlyOne
    exact ⟨fun hall p hp => hall p (hperm.mem_iff.mpr hp),
      fun hall p hp => hall p (hperm.mem_iff.mp hp)⟩
  refine ⟨hnone, ?_⟩
  intro hone
  by_cases hex : ∃ p ∈ hooks₁, hasInvalidEntry p.2
  · obtain ⟨⟨h, es⟩, hp, hinv⟩ := hex
    have hes : ¬ ∀ e ∈ es, exactlyOne e := by
      obtain ⟨e, he, hbad⟩ := hinv
      exact fun hall => hbad (hall e he)
    have hothers : ∀ q ∈ hooks₁, q ≠ (h, es) → ∀ e ∈ q.2, exactlyOne e := by
      intro q hq hne e he
      by_contra hbad
      exact hne (hone q hq (h, es) hp ⟨e, he, hbad⟩ hinv)
    rw [validateHookScripts_only h es hes hooks₁ hp hothers,
      validateHookScripts_only h es hes hooks₂ (hperm.mem_iff.mp hp)
        (fun q hq => hothers q (hperm.mem_iff.mpr hq))]
  · have hall : allExactlyOne hooks₁ := by
      intro p hp e he
      by_contra hbad
      exact hex ⟨p, hp, e, he, hbad⟩
    have h1 := (validateHookScripts_eq_none_iff hooks₁).mpr hall
    rw [h1, hnone.mp h1]

/-- Witness for C16: two visiting orders of a mapping in which only the hook
`pre-commit` has an invalid entry. -/
theorem validateHookScripts_order_independent_witness :
    (validateHookScripts
        [("pre-push", [⟨"lint", "", "go vet", "Lint"⟩]),
         ("pre-commit", [⟨"invalid", "", "", "Invalid"⟩])] = none ↔
      validateHookScripts
        [("pre-commit", [⟨"invalid", "", "", "Invalid"⟩]),
         ("pre-push", [⟨"lint", "", "go vet", "Lint"⟩])] = none) ∧
    validateHookScripts
        [("pre-push", [⟨"lint", "", "go vet", "Lint"⟩]),
         ("pre-commit", [⟨"invalid", "", "", "Invalid"⟩])] =
      validateHookScripts
        [("pre-commit", [⟨"invalid", "", "", "Invalid"⟩]),
         ("pre-push", [⟨"lint", "", "go vet", "Lint"⟩])] :=
  ⟨(validateHookScripts_order_independent
      [("pre-push", [⟨"lint", "", "go vet", "Lint"⟩]),
       ("pre-commit", [⟨"invalid", "", "", "Invalid"⟩])]
      [("pre-commit", [⟨"invalid", "", "", "Invalid"⟩]),
       ("pre-push", [⟨"lint", "", "go vet", "Lint"⟩])]
      (List.Perm.swap _ _ _)).1,
    (validateHookScripts_order_independent
      [("pre-push", [⟨"lint", "", "go vet", "Lint"⟩]),
       ("pre-commit", [⟨"invalid", "", "", "Invalid"⟩])]
      [("pre-commit", [⟨"invalid", "", "", "Invalid"⟩]),
       ("pre-push", [⟨"lint", "", "go vet", "Lint"⟩])]
      (List.Perm.swap _ _ _)).2 (by decide)⟩

end Hooky
